import Mathlib

/-!
# Verification of the entity-wrapping layer of a content-management API client

This file embeds, in Lean, the data model and operations of a typed client
library for a content-management REST API (the `contentful-management`
organization API and the `PreviewApiKey` entity wrapper), and proves the
behavioural properties its specification states.

The JavaScript side manipulates mutable objects on a heap, so the embedding
uses an explicit store: addresses, objects with enumerable data properties and
non-enumerable method slots, plus a frozen flag (`Object.freeze`).  Raw API
response data is a finite tree of JSON values materialised on that heap; the
wrap pipeline `toPlainObject(cloneDeep(data))`, `enhanceWithMethods`,
`freezeSys` is modelled step by step.  The organization API
(`createOrganizationApi`) is modelled as a function from calls to the single
HTTP request each method issues together with the interpretation of the
response.
-/

/-- A heap address: JavaScript object identity. -/
abbrev Addr := Nat

/-- A JavaScript value: a primitive, or a reference to a heap object. -/
inductive JVal where
  | vnull
  | vbool (b : Bool)
  | vnum (n : Int)
  | vstr (s : String)
  | vref (a : Addr)
deriving DecidableEq, Repr

/-- A method slot on a wrapped entity: the method's name and, when the method
is a closure over the HTTP client passed to the wrap function, the identity of
the captured client. -/
structure MethodClosure where
  methodName : String
  capturedHttp : Option Nat
deriving DecidableEq, Repr

/-- A JavaScript object: enumerable data properties (in insertion order),
non-enumerable method properties, and the `Object.freeze` flag. -/
structure JObj where
  props : List (String × JVal)
  methods : List (String × MethodClosure)
  frozen : Bool
deriving DecidableEq, Repr

/-- The store: allocated objects, and the next fresh address. -/
structure Heap where
  objs : List (Addr × JObj)
  next : Addr
deriving DecidableEq, Repr

/-- First association for a `Nat` key. -/
def findNat (l : List (Nat × JObj)) (a : Nat) : Option JObj :=
  match l with
  | [] => none
  | (k, o) :: rest => if k = a then some o else findNat rest a

/-- Replace the object stored under a key (all entries with that key). -/
def mapSet (l : List (Nat × JObj)) (a : Nat) (o : JObj) : List (Nat × JObj) :=
  match l with
  | [] => []
  | (k, o1) :: rest =>
      if k = a then (k, o) :: mapSet rest a o else (k, o1) :: mapSet rest a o

/-- First association for a `String` key. -/
def findAssoc {α : Type} (l : List (String × α)) (k : String) : Option α :=
  match l with
  | [] => none
  | (k1, v) :: rest => if k1 = k then some v else findAssoc rest k

/-- JavaScript property assignment on a property list: overwrite in place if
the key is present (keeping its position), append otherwise. -/
def setAssoc {α : Type} (l : List (String × α)) (k : String) (v : α) : List (String × α) :=
  match l with
  | [] => [(k, v)]
  | (k1, v1) :: rest =>
      if k1 = k then (k, v) :: rest else (k1, v1) :: setAssoc rest k v

/-- The object stored at an address, if any. -/
def lookupObj (h : Heap) (a : Addr) : Option JObj :=
  findNat h.objs a

/-- Overwrite the object stored at an address (no-op on unallocated
addresses). -/
def setObj (h : Heap) (a : Addr) (o : JObj) : Heap :=
  ⟨mapSet h.objs a o, h.next⟩

/-- Allocate a new object at the next fresh address. -/
def allocObj (h : Heap) (o : JObj) : Heap × Addr :=
  (⟨(h.next, o) :: h.objs, h.next + 1⟩, h.next)

/-- Property read `a[k]`. -/
def getProp (h : Heap) (a : Addr) (k : String) : Option JVal :=
  match lookupObj h a with
  | none => none
  | some o => findAssoc o.props k

/-- Property write `a[k] = v`: a silent no-op on a frozen object
(`Object.freeze` semantics) and on unallocated addresses. -/
def setProp (h : Heap) (a : Addr) (k : String) (v : JVal) : Heap :=
  match lookupObj h a with
  | none => h
  | some o =>
      if o.frozen then h
      else setObj h a { o with props := setAssoc o.props k v }

/-- Install a non-enumerable method slot (`Object.defineProperty`); a no-op on
frozen objects and unallocated addresses. -/
def addMethod (h : Heap) (a : Addr) (k : String) (m : MethodClosure) : Heap :=
  match lookupObj h a with
  | none => h
  | some o =>
      if o.frozen then h
      else setObj h a { o with methods := setAssoc o.methods k m }

/-- Whether the object at an address is frozen. -/
def isFrozen (h : Heap) (a : Addr) : Bool :=
  match lookupObj h a with
  | none => false
  | some o => o.frozen

/-- Whether the object at an address has a method slot of the given name. -/
def hasMethod (h : Heap) (a : Addr) (k : String) : Bool :=
  match lookupObj h a with
  | none => false
  | some o => (findAssoc o.methods k).isSome

/-- The method slots of the object at an address. -/
def methodsAt (h : Heap) (a : Addr) : Option (List (String × MethodClosure)) :=
  (lookupObj h a).map JObj.methods

/-- The data properties of the object at an address. -/
def propsAt (h : Heap) (a : Addr) : Option (List (String × JVal)) :=
  (lookupObj h a).map JObj.props

/-- A value is reference-closed: if it is a reference, it resolves. -/
def valRefOK (h : Heap) (v : JVal) : Bool :=
  match v with
  | .vref a => (lookupObj h a).isSome
  | _ => true

/-- Heap well-formedness: distinct keys, all below `next`, and every stored
reference resolves (JavaScript heaps cannot dangle). -/
def Heap.wfBool (h : Heap) : Bool :=
  decide (h.objs.map Prod.fst).Nodup &&
    h.objs.all (fun p =>
      decide (p.1 < h.next) && p.2.props.all (fun kv => valRefOK h kv.2))

/-- Heap well-formedness as a proposition. -/
def Heap.WF (h : Heap) : Prop := h.wfBool = true

instance (h : Heap) : Decidable h.WF :=
  inferInstanceAs (Decidable (h.wfBool = true))

/-- A JSON tree: the shape of a raw (parsed) API response. -/
inductive JTree where
  | tnull
  | tbool (b : Bool)
  | tnum (n : Int)
  | tstr (s : String)
  | tobj (fields : List (String × JTree))

/-- Traverse a property list with a partial reading function, keeping keys. -/
def seqFields {α : Type} (f : JVal → Option α) (l : List (String × JVal)) :
    Option (List (String × α)) :=
  match l with
  | [] => some []
  | (k, v) :: rest =>
      match f v, seqFields f rest with
      | some t, some ts => some ((k, t) :: ts)
      | _, _ => none

/-- All property values satisfy a check. -/
def allFields (f : JVal → Bool) (l : List (String × JVal)) : Bool :=
  match l with
  | [] => true
  | (_, v) :: rest => f v && allFields f rest

/-- Fold an effectful step over the property values, left to right. -/
def foldFields (f : Heap → JVal → Heap) (h : Heap) (l : List (String × JVal)) : Heap :=
  match l with
  | [] => h
  | (_, v) :: rest => foldFields f (f h v) rest

/-- Read the JSON tree a heap value denotes, up to a reference depth. -/
def readTree (h : Heap) : Nat → JVal → Option JTree
  | _, .vnull => some .tnull
  | _, .vbool b => some (.tbool b)
  | _, .vnum n => some (.tnum n)
  | _, .vstr s => some (.tstr s)
  | 0, .vref _ => none
  | fuel + 1, .vref a =>
      match lookupObj h a with
      | none => none
      | some o =>
          match seqFields (readTree h fuel) o.props with
          | some fs => some (.tobj fs)
          | none => none

/-- Follow a path of property names from a value. -/
def readPath (h : Heap) : JVal → List String → Option JVal
  | v, [] => some v
  | .vref a, k :: ks =>
      match getProp h a k with
      | some v1 => readPath h v1 ks
      | none => none
  | _, _ :: _ => none

/-- Every address the readback of a value dereferences (to the given depth)
satisfies the predicate, and every dereference resolves. -/
def closedIn (h : Heap) (p : Nat → Bool) : Nat → JVal → Bool
  | _, .vnull => true
  | _, .vbool _ => true
  | _, .vnum _ => true
  | _, .vstr _ => true
  | 0, .vref _ => false
  | fuel + 1, .vref a =>
      p a &&
        match lookupObj h a with
        | none => false
        | some o => allFields (closedIn h p fuel) o.props

/-- Addresses strictly below a bound. -/
def belowPred (n : Nat) : Nat → Bool := fun a => decide (a < n)

/-- Addresses in the half-open interval `[m, n)`. -/
def rangePred (m n : Nat) : Nat → Bool := fun a => decide (m ≤ a) && decide (a < n)

/-- Clone the property values with a partial heap-threading step. -/
def cloneFieldsWith (f : Heap → JVal → Option (Heap × JVal)) :
    Heap → List (String × JVal) → Option (Heap × List (String × JVal))
  | h, [] => some (h, [])
  | h, (k, v) :: rest =>
      match f h v with
      | none => none
      | some (h1, v1) =>
          match cloneFieldsWith f h1 rest with
          | none => none
          | some (h2, vs) => some (h2, (k, v1) :: vs)

/-- Modelled from its documented behaviour: lodash `cloneDeep` (an external
collaborator of the repository) returns a structurally equal deep copy of its
argument sharing no mutable substructure with it.  On an acyclic heap value it
recursively copies every reachable object into a fresh, unfrozen, methodless
object; primitives are returned unchanged.  Depth is bounded by `fuel` (raw
parsed API data is a finite tree). -/
def cloneDeep : Nat → Heap → JVal → Option (Heap × JVal)
  | _, h, .vnull => some (h, .vnull)
  | _, h, .vbool b => some (h, .vbool b)
  | _, h, .vnum n => some (h, .vnum n)
  | _, h, .vstr s => some (h, .vstr s)
  | 0, _, .vref _ => none
  | fuel + 1, h, .vref a =>
      match lookupObj h a with
      | none => none
      | some o =>
          match cloneFieldsWith (cloneDeep fuel) h o.props with
          | none => none
          | some (h1, ps) =>
              let p := allocObj h1 ⟨ps, [], false⟩
              some (p.1, .vref p.2)

/-- Modelled from its documented behaviour: `freezeObjectDeep` from
`contentful-sdk-core` (an external collaborator): recursively freeze every
plain object reachable from the value, children before the object itself,
via `Object.freeze`. -/
def freezeDeep : Nat → Heap → JVal → Heap
  | 0, h, _ => h
  | _ + 1, h, .vnull => h
  | _ + 1, h, .vbool _ => h
  | _ + 1, h, .vnum _ => h
  | _ + 1, h, .vstr _ => h
  | fuel + 1, h, .vref a =>
      match lookupObj h a with
      | none => h
      | some o =>
          let h1 := foldFields (freezeDeep fuel) h o.props
          match lookupObj h1 a with
          | none => h1
          | some o1 => setObj h1 a { o1 with frozen := true }

/-- Modelled from its documented behaviour: `freezeSys` from
`contentful-sdk-core` deep-freezes the object's `sys` member (and is a no-op
on the rest); when `sys` is absent it freezes a fresh empty object, leaving
the heap observably unchanged. -/
def freezeSys (fuel : Nat) (h : Heap) (a : Addr) : Heap :=
  match getProp h a "sys" with
  | some v => freezeDeep fuel h v
  | none => h

/-- Modelled from its documented behaviour: `toPlainObject` from
`contentful-sdk-core` installs a non-enumerable `toPlainObject` method on the
object; the method closes over the object itself, not over any HTTP client. -/
def toPlainObjectSetup (h : Heap) (a : Addr) : Heap :=
  addMethod h a "toPlainObject" ⟨"toPlainObject", none⟩

/-- Modelled from its documented behaviour: invoking the installed
`toPlainObject` method returns a deep copy of the object's enumerable data
properties (method slots are non-enumerable and are not copied). -/
def callToPlainObject (fuel : Nat) (h : Heap) (a : Addr) : Option (Heap × JVal) :=
  if hasMethod h a "toPlainObject" then cloneDeep fuel h (.vref a) else none

/-- Modelled from the spec: `enhanceWithMethods` (src/lib/enhance-with-methods,
not present under src/) copies each entry of the methods object onto the base
object as a non-enumerable method property and returns the mutated base
object. -/
def enhanceWithMethods (h : Heap) (a : Addr) :
    List (String × MethodClosure) → Heap
  | [] => h
  | (k, m) :: rest => enhanceWithMethods (addMethod h a k m) a rest

/-- From src/lib/entities/preview-api-key.ts: `createPreviewApiKeyApi`
returns the empty methods object. -/
def createPreviewApiKeyApi : List (String × MethodClosure) := []

/-- From src/lib/entities/preview-api-key.ts: `wrapPreviewApiKey` clones the
raw data, installs the `toPlainObject` snapshot method, enhances with the
(empty) preview-api-key methods, then freezes the `sys` member.  The HTTP
client argument is unused (`_http` in the source).  `fuel` bounds reference
depth; raw response data is a finite tree, so a large enough fuel exists. -/
def wrapPreviewApiKey (fuel : Nat) (_http : Nat) (h : Heap) (data : JVal) :
    Option (Heap × Addr) :=
  match cloneDeep fuel h data with
  | some (h1, .vref a) =>
      let h2 := toPlainObjectSetup h1 a
      let h3 := enhanceWithMethods h2 a createPreviewApiKeyApi
      some (freezeSys fuel h3 a, a)
  | _ => none

/-- Heaps with identical data properties everywhere (method slots and frozen
flags may differ). -/
def SameProps (h h2 : Heap) : Prop :=
  ∀ a, propsAt h2 a = propsAt h a

/-- Heaps whose data properties agree on every address satisfying `p`. -/
def AgreeOn (p : Nat → Bool) (h h2 : Heap) : Prop :=
  ∀ a, p a = true → propsAt h2 a = propsAt h a

/-- A freeze-only heap evolution: data properties, method slots, domain and
`next` are untouched; frozen flags only ever turn on. -/
def FreezeOnly (h h2 : Heap) : Prop :=
  (∀ a, propsAt h2 a = propsAt h a) ∧
  (∀ a, methodsAt h2 a = methodsAt h a) ∧
  (∀ a, isFrozen h a = true → isFrozen h2 a = true) ∧
  h2.next = h.next ∧
  h2.objs.map Prod.fst = h.objs.map Prod.fst

/-! ## Collections

`CollectionProp` (src/lib/common-types.ts) is `{sys: {type: 'Array'}, total,
skip, limit, items}`.  Items of a raw collection response are heap values; a
wrapped collection keeps the pagination metadata and holds the addresses of
the wrapped entities. -/

/-- A raw collection response (shape of `CollectionProp` from
src/lib/common-types.ts): the `sys.type` tag, pagination metadata, and the
raw items as heap values. -/
structure CollectionData where
  sysType : String
  total : Int
  skip : Int
  limit : Int
  items : List JVal
deriving DecidableEq, Repr

/-- A wrapped collection: pagination metadata plus the addresses of the
wrapped entities. -/
structure WrappedCollection where
  sysType : String
  total : Int
  skip : Int
  limit : Int
  items : List Addr
deriving DecidableEq, Repr

/-- Wrap each raw item in turn, threading the heap. -/
def wrapItemsWith (f : Heap → JVal → Option (Heap × Addr)) :
    Heap → List JVal → Option (Heap × List Addr)
  | h, [] => some (h, [])
  | h, v :: rest =>
      match f h v with
      | none => none
      | some (h1, a) =>
          match wrapItemsWith f h1 rest with
          | none => none
          | some (h2, as) => some (h2, a :: as)

/-- Modelled from the spec: `wrapCollection` (src/lib/common-utils, not
present under src/) lifts an entity wrap function to collection responses:
the pagination metadata (`sys`, `total`, `skip`, `limit`) is carried over
unchanged and each item of the response is wrapped with the given function,
in order. -/
def wrapCollection (f : Heap → JVal → Option (Heap × Addr)) (h : Heap)
    (c : CollectionData) : Option (Heap × WrappedCollection) :=
  match wrapItemsWith f h c.items with
  | none => none
  | some (h1, as) => some (h1, ⟨c.sysType, c.total, c.skip, c.limit, as⟩)

/-- From src/lib/entities/preview-api-key.ts:
`wrapPreviewApiKeyCollection = wrapCollection(wrapPreviewApiKey)`. -/
def wrapPreviewApiKeyCollection (fuel : Nat) (http : Nat) (h : Heap)
    (c : CollectionData) : Option (Heap × WrappedCollection) :=
  wrapCollection (wrapPreviewApiKey fuel http) h c

/-! ## The organization API (src/lib/common-types.ts, `createOrganizationApi`)

Each method builds one HTTP request and interprets the response: the model
returns the list of issued requests together with the outcome, so "exactly
one request" and the error path are provable statements. -/

/-- Search/query parameters (`QueryOptions`): ordered string-keyed map. -/
abbrev Query := List (String × JTree)

/-- Options object of `getTeamMemberships` / `getTeamSpaceMemberships`:
`{ teamId?: string; query?: QueryOptions }`. -/
structure TeamOpts where
  teamId : Option String
  query : Option Query

/-- An HTTP request as the client assembles it: verb, path, query parameters
(`createRequestConfig({query})` from `contentful-sdk-core` passes the query
through as axios `params`), extra headers, and a body for POST. -/
structure ApiRequest where
  verb : String
  path : String
  query : Query
  headers : List (String × String)
  body : Option JTree

/-- An HTTP-level failure (opaque to this layer). -/
structure HttpError where
  status : Nat
  message : String
deriving DecidableEq, Repr

/-- Modelled from the spec: `errorHandler` (src/lib/error-handler, not present
under src/) is the single error-translation layer; it turns the HTTP failure
into the error the call rejects with. -/
structure ApiError where
  cause : HttpError
deriving DecidableEq, Repr

/-- Modelled from the spec: the error translation applied to every rejected
request. -/
def errorHandler (e : HttpError) : ApiError := ⟨e⟩

/-- The behaviour of the underlying HTTP client on one request: the raw
response data (`response.data`) or a failure. -/
def HttpClient : Type := ApiRequest → Except HttpError JTree

/-- A typed value returned by an organization API method, tagged with the
entity kind its wrap function produces. -/
inductive OrgResult where
  | user (data : JTree)
  | userCollection (data : JTree)
  | organizationMembership (data : JTree)
  | organizationMembershipCollection (data : JTree)
  | team (data : JTree)
  | teamCollection (data : JTree)
  | teamMembership (data : JTree)
  | teamMembershipCollection (data : JTree)
  | teamSpaceMembership (data : JTree)
  | teamSpaceMembershipCollection (data : JTree)
  | spaceMembership (data : JTree)
  | spaceMembershipCollection (data : JTree)
  | organizationInvitation (data : JTree)
  | appDefinition (data : JTree)
  | appDefinitionCollection (data : JTree)

/-- Modelled from the spec: the entity wrap functions used by the
organization API (entities/user, entities/team, …, not present under src/)
each convert the raw response data into the corresponding decorated typed
value; the model tags the data with the entity kind. -/
def wrapUser (_http : HttpClient) (d : JTree) : OrgResult := .user d

/-- Modelled from the spec (see `wrapUser`). -/
def wrapUserCollection (_http : HttpClient) (d : JTree) : OrgResult := .userCollection d

/-- Modelled from the spec (see `wrapUser`). -/
def wrapOrganizationMembership (_http : HttpClient) (d : JTree) : OrgResult :=
  .organizationMembership d

/-- Modelled from the spec (see `wrapUser`). -/
def wrapOrganizationMembershipCollection (_http : HttpClient) (d : JTree) : OrgResult :=
  .organizationMembershipCollection d

/-- Modelled from the spec (see `wrapUser`). -/
def wrapTeam (_http : HttpClient) (d : JTree) : OrgResult := .team d

/-- Modelled from the spec (see `wrapUser`). -/
def wrapTeamCollection (_http : HttpClient) (d : JTree) : OrgResult := .teamCollection d

/-- Modelled from the spec (see `wrapUser`). -/
def wrapTeamMembership (_http : HttpClient) (d : JTree) : OrgResult := .teamMembership d

/-- Modelled from the spec (see `wrapUser`). -/
def wrapTeamMembershipCollection (_http : HttpClient) (d : JTree) : OrgResult :=
  .teamMembershipCollection d

/-- Modelled from the spec (see `wrapUser`). -/
def wrapTeamSpaceMembership (_http : HttpClient) (d : JTree) : OrgResult :=
  .teamSpaceMembership d

/-- Modelled from the spec (see `wrapUser`). -/
def wrapTeamSpaceMembershipCollection (_http : HttpClient) (d : JTree) : OrgResult :=
  .teamSpaceMembershipCollection d

/-- Modelled from the spec (see `wrapUser`). -/
def wrapSpaceMembership (_http : HttpClient) (d : JTree) : OrgResult := .spaceMembership d

/-- Modelled from the spec (see `wrapUser`). -/
def wrapSpaceMembershipCollection (_http : HttpClient) (d : JTree) : OrgResult :=
  .spaceMembershipCollection d

/-- Modelled from the spec (see `wrapUser`). -/
def wrapOrganizationInvitation (_http : HttpClient) (d : JTree) : OrgResult :=
  .organizationInvitation d

/-- Modelled from the spec (see `wrapUser`). -/
def wrapAppDefinition (_http : HttpClient) (d : JTree) : OrgResult := .appDefinition d

/-- Modelled from the spec (see `wrapUser`). -/
def wrapAppDefinitionCollection (_http : HttpClient) (d : JTree) : OrgResult :=
  .appDefinitionCollection d

/-- A call to one of the methods of the object `createOrganizationApi`
returns, with its arguments. -/
inductive OrgCall where
  | getUser (id : String)
  | getUsers (query : Query)
  | getOrganizationMembership (id : String)
  | getOrganizationMemberships (query : Query)
  | createTeam (data : JTree)
  | getTeam (teamId : String)
  | getTeams (query : Query)
  | createTeamMembership (teamId : String) (data : JTree)
  | getTeamMembership (teamId : String) (teamMembershipId : String)
  | getTeamMemberships (opts : TeamOpts)
  | getTeamSpaceMemberships (opts : TeamOpts)
  | getTeamSpaceMembership (teamSpaceMembershipId : String)
  | getOrganizationSpaceMembership (id : String)
  | getOrganizationSpaceMemberships (query : Query)
  | getOrganizationInvitation (invitationId : String)
  | createOrganizationInvitation (data : JTree)
  | createAppDefinition (data : JTree)
  | getAppDefinitions (query : Query)
  | getAppDefinition (id : String)

/-- The promise pattern `http.verb(...).then(wrap, errorHandler)`: issue the
single request; interpret a fulfilled response with the wrap function and a
rejected one with `errorHandler`. -/
def issue (http : HttpClient) (r : ApiRequest) (wrapResp : JTree → OrgResult) :
    List ApiRequest × Except ApiError OrgResult :=
  ([r],
   match http r with
   | .ok d => .ok (wrapResp d)
   | .error e => .error (errorHandler e))

/-- The alpha-feature header constant of `createOrganizationApi`. -/
def orgAlphaHeaders : List (String × String) :=
  [("x-contentful-enable-alpha-feature", "organization-user-management-api")]

/-- The alpha-feature header of `createOrganizationInvitation`. -/
def invitationAlphaHeaders : List (String × String) :=
  [("x-contentful-enable-alpha-feature", "pending-org-membership")]

/-- From src/lib/common-types.ts, `createOrganizationApi`: each method of the
returned object, translated branch by branch (verb, path construction, query,
headers, body, wrap function, error handler). -/
def runOrgCall (http : HttpClient) : OrgCall → List ApiRequest × Except ApiError OrgResult
  | .getUser id =>
      issue http ⟨"GET", "users/" ++ id, [], [], none⟩ (wrapUser http)
  | .getUsers query =>
      issue http ⟨"GET", "users", query, [], none⟩ (wrapUserCollection http)
  | .getOrganizationMembership id =>
      issue http ⟨"GET", "organization_memberships/" ++ id, [], [], none⟩
        (wrapOrganizationMembership http)
  | .getOrganizationMemberships query =>
      issue http ⟨"GET", "organization_memberships", query, [], none⟩
        (wrapOrganizationMembershipCollection http)
  | .createTeam data =>
      issue http ⟨"POST", "teams", [], [], some data⟩ (wrapTeam http)
  | .getTeam teamId =>
      issue http ⟨"GET", "teams/" ++ teamId, [], [], none⟩ (wrapTeam http)
  | .getTeams query =>
      issue http ⟨"GET", "teams", query, [], none⟩ (wrapTeamCollection http)
  | .createTeamMembership teamId data =>
      issue http ⟨"POST", "teams/" ++ teamId ++ "/team_memberships", [], [], some data⟩
        (wrapTeamMembership http)
  | .getTeamMembership teamId teamMembershipId =>
      issue http
        ⟨"GET", "teams/" ++ teamId ++ "/team_memberships/" ++ teamMembershipId, [], [], none⟩
        (wrapTeamMembership http)
  | .getTeamMemberships opts =>
      let query := opts.query.getD []
      match opts.teamId with
      | some tid =>
          if tid ≠ "" then
            issue http ⟨"GET", "teams/" ++ tid ++ "/team_memberships", query, [], none⟩
              (wrapTeamMembershipCollection http)
          else
            issue http ⟨"GET", "team_memberships", query, [], none⟩
              (wrapTeamMembershipCollection http)
      | none =>
          issue http ⟨"GET", "team_memberships", query, [], none⟩
            (wrapTeamMembershipCollection http)
  | .getTeamSpaceMemberships opts =>
      let query := opts.query.getD []
      let query2 :=
        match opts.teamId with
        | some tid =>
            if tid ≠ "" then setAssoc query "sys.team.sys.id" (.tstr tid) else query
        | none => query
      issue http ⟨"GET", "team_space_memberships", query2, [], none⟩
        (wrapTeamSpaceMembershipCollection http)
  | .getTeamSpaceMembership teamSpaceMembershipId =>
      issue http ⟨"GET", "team_space_memberships/" ++ teamSpaceMembershipId, [], [], none⟩
        (wrapTeamSpaceMembership http)
  | .getOrganizationSpaceMembership id =>
      issue http ⟨"GET", "space_memberships/" ++ id, [], [], none⟩
        (wrapSpaceMembership http)
  | .getOrganizationSpaceMemberships query =>
      issue http ⟨"GET", "space_memberships", query, [], none⟩
        (wrapSpaceMembershipCollection http)
  | .getOrganizationInvitation invitationId =>
      issue http ⟨"GET", "invitations/" ++ invitationId, [], orgAlphaHeaders, none⟩
        (wrapOrganizationInvitation http)
  | .createOrganizationInvitation data =>
      issue http ⟨"POST", "invitations", [], invitationAlphaHeaders, some data⟩
        (wrapOrganizationInvitation http)
  | .createAppDefinition data =>
      issue http ⟨"POST", "app_definitions", [], [], some data⟩ (wrapAppDefinition http)
  | .getAppDefinitions query =>
      issue http ⟨"GET", "app_definitions", query, [], none⟩
        (wrapAppDefinitionCollection http)
  | .getAppDefinition id =>
      issue http ⟨"GET", "app_definitions/" ++ id, [], [], none⟩ (wrapAppDefinition http)

/-- JavaScript truthiness of an optional string (`if (opts.teamId)`):
`undefined` and the empty string are falsy. -/
def strTruthy (s : Option String) : Bool :=
  match s with
  | none => false
  | some s1 => decide (s1 ≠ "")

/-- Specification-side decomposition, for the single-request theorem: the one
request a given organization API call issues, per the spec's description of
each method ("each method is a single HTTP request"). -/
def orgRequest : OrgCall → ApiRequest
  | .getUser id => ⟨"GET", "users/" ++ id, [], [], none⟩
  | .getUsers query => ⟨"GET", "users", query, [], none⟩
  | .getOrganizationMembership id => ⟨"GET", "organization_memberships/" ++ id, [], [], none⟩
  | .getOrganizationMemberships query => ⟨"GET", "organization_memberships", query, [], none⟩
  | .createTeam data => ⟨"POST", "teams", [], [], some data⟩
  | .getTeam teamId => ⟨"GET", "teams/" ++ teamId, [], [], none⟩
  | .getTeams query => ⟨"GET", "teams", query, [], none⟩
  | .createTeamMembership teamId data =>
      ⟨"POST", "teams/" ++ teamId ++ "/team_memberships", [], [], some data⟩
  | .getTeamMembership teamId teamMembershipId =>
      ⟨"GET", "teams/" ++ teamId ++ "/team_memberships/" ++ teamMembershipId, [], [], none⟩
  | .getTeamMemberships opts =>
      ⟨"GET",
       if strTruthy opts.teamId then "teams/" ++ opts.teamId.getD "" ++ "/team_memberships"
       else "team_memberships",
       opts.query.getD [], [], none⟩
  | .getTeamSpaceMemberships opts =>
      ⟨"GET", "team_space_memberships",
       (match opts.teamId with
        | some tid =>
            if tid ≠ "" then setAssoc (opts.query.getD []) "sys.team.sys.id" (.tstr tid)
            else opts.query.getD []
        | none => opts.query.getD []),
       [], none⟩
  | .getTeamSpaceMembership teamSpaceMembershipId =>
      ⟨"GET", "team_space_memberships/" ++ teamSpaceMembershipId, [], [], none⟩
  | .getOrganizationSpaceMembership id => ⟨"GET", "space_memberships/" ++ id, [], [], none⟩
  | .getOrganizationSpaceMemberships query => ⟨"GET", "space_memberships", query, [], none⟩
  | .getOrganizationInvitation invitationId =>
      ⟨"GET", "invitations/" ++ invitationId, [], orgAlphaHeaders, none⟩
  | .createOrganizationInvitation data =>
      ⟨"POST", "invitations", [], invitationAlphaHeaders, some data⟩
  | .createAppDefinition data => ⟨"POST", "app_definitions", [], [], some data⟩
  | .getAppDefinitions query => ⟨"GET", "app_definitions", query, [], none⟩
  | .getAppDefinition id => ⟨"GET", "app_definitions/" ++ id, [], [], none⟩

/-- Specification-side decomposition: the typed value an organization API
call builds from the raw response data. -/
def orgWrap : OrgCall → JTree → OrgResult
  | .getUser _, d => .user d
  | .getUsers _, d => .userCollection d
  | .getOrganizationMembership _, d => .organizationMembership d
  | .getOrganizationMemberships _, d => .organizationMembershipCollection d
  | .createTeam _, d => .team d
  | .getTeam _, d => .team d
  | .getTeams _, d => .teamCollection d
  | .createTeamMembership _ _, d => .teamMembership d
  | .getTeamMembership _ _, d => .teamMembership d
  | .getTeamMemberships _, d => .teamMembershipCollection d
  | .getTeamSpaceMemberships _, d => .teamSpaceMembershipCollection d
  | .getTeamSpaceMembership _, d => .teamSpaceMembership d
  | .getOrganizationSpaceMembership _, d => .spaceMembership d
  | .getOrganizationSpaceMemberships _, d => .spaceMembershipCollection d
  | .getOrganizationInvitation _, d => .organizationInvitation d
  | .createOrganizationInvitation _, d => .organizationInvitation d
  | .createAppDefinition _, d => .appDefinition d
  | .getAppDefinitions _, d => .appDefinitionCollection d
  | .getAppDefinition _, d => .appDefinition d

/-! ## Heap-level query preparation of `getTeamSpaceMemberships`

The source (src/lib/common-types.ts lines 336-346) aliases the caller's query
object — `const query = get(opts, 'query', {})` — and then assigns
`query['sys.team.sys.id'] = opts.teamId` on it when `opts.teamId` is truthy.
The heap-level model exposes that in-place mutation. -/

/-- JavaScript truthiness of a heap value. -/
def truthy : JVal → Bool
  | .vnull => false
  | .vbool b => b
  | .vnum n => decide (n ≠ 0)
  | .vstr s => decide (s ≠ "")
  | .vref _ => true

/-- From src/lib/common-types.ts lines 336-346: the query preparation of
`getTeamSpaceMemberships` over the heap.  `get(opts, 'query', {})` yields the
caller's query object itself when present (a fresh empty object otherwise);
when `opts.teamId` is truthy, `'sys.team.sys.id'` is assigned on that very
object.  Returns the heap after the step and the query value handed to
`createRequestConfig`. -/
def getTeamSpaceMembershipsQueryStep (h : Heap) (opts : Addr) : Heap × JVal :=
  let qp : Heap × JVal :=
    match getProp h opts "query" with
    | some v => (h, v)
    | none =>
        let p := allocObj h ⟨[], [], false⟩
        (p.1, .vref p.2)
  match getProp qp.1 opts "teamId" with
  | some tid =>
      if truthy tid then
        match qp.2 with
        | .vref qa => (setProp qp.1 qa "sys.team.sys.id" tid, qp.2)
        | _ => qp
      else qp
  | none => qp

/-! ## Sample data (used by the witnesses) -/

/-- A concrete heap holding one raw preview-api-key response: the link target
at 0, the `SysLink` at 1, the `sys` object at 2 and the response root at 3. -/
def sampleHeap : Heap :=
  ⟨[(0, ⟨[("type", .vstr "Link"), ("linkType", .vstr "Space"), ("id", .vstr "space1")], [], false⟩),
    (1, ⟨[("sys", .vref 0)], [], false⟩),
    (2, ⟨[("type", .vstr "PreviewApiKey"), ("id", .vstr "key1"), ("version", .vnum 1),
          ("createdAt", .vstr "2020-01-01"), ("updatedAt", .vstr "2020-01-02"),
          ("space", .vref 1)], [], false⟩),
    (3, ⟨[("sys", .vref 2), ("name", .vstr "Preview Key"), ("description", .vstr "a key")], [], false⟩)],
   4⟩

/-- A concrete collection response over `sampleHeap`: one raw item, the
response root. -/
def sampleCollection : CollectionData :=
  ⟨"Array", 1, 0, 100, [.vref 3]⟩

/-- A concrete heap for the query-mutation witness: the caller's options
object at 0 holds a truthy `teamId` and a reference to the caller's query
object at 1. -/
def sampleOptsHeap : Heap :=
  ⟨[(0, ⟨[("teamId", .vstr "team42"), ("query", .vref 1)], [], false⟩),
    (1, ⟨[("limit", .vnum 5)], [], false⟩)],
   2⟩

/-- A concrete HTTP error. -/
def sampleErr : HttpError := ⟨500, "boom"⟩

/-- An HTTP client behaviour that rejects every request. -/
def failingClient : HttpClient := fun _ => .error sampleErr

/-- A concrete raw response body. -/
def okData : JTree := .tobj [("sys", .tobj [("type", .tstr "User"), ("id", .tstr "u1")])]

/-- An HTTP client behaviour that fulfils every request with `okData`. -/
def okClient : HttpClient := fun _ => .ok okData

/-- Whether a wrap result carries a method of the given name (`false` when the
wrap failed). -/
def hasMethodOpt (r : Option (Heap × Addr)) (k : String) : Bool :=
  match r with
  | none => false
  | some p => hasMethod p.1 p.2 k

/-- The result of wrapping the sample raw response. -/
def sampleWrap : Heap × Addr :=
  (wrapPreviewApiKey 10 7 sampleHeap (.vref 3)).getD (⟨[], 0⟩, 0)

/-- The result of wrapping the sample collection response. -/
def sampleColWrap : Heap × WrappedCollection :=
  (wrapPreviewApiKeyCollection 10 7 sampleHeap sampleCollection).getD
    (⟨[], 0⟩, ⟨"", 0, 0, 0, []⟩)

/-! # Theorems

## Association lists -/

theorem findAssoc_setAssoc_self {α : Type} (l : List (String × α)) (k : String) (v : α) :
    findAssoc (setAssoc l k v) k = some v := by
  induction l with
  | nil => simp [setAssoc, findAssoc]
  | cons kv rest ih =>
      obtain ⟨k1, v1⟩ := kv
      by_cases hk : k1 = k
      · simp [setAssoc, findAssoc, hk]
      · simp [setAssoc, findAssoc, hk, ih]

theorem findAssoc_setAssoc_other {α : Type} (l : List (String × α)) (k k2 : String)
    (v : α) (hne : k2 ≠ k) : findAssoc (setAssoc l k v) k2 = findAssoc l k2 := by
  induction l with
  | nil => simp [setAssoc, findAssoc, Ne.symm hne]
  | cons kv rest ih =>
      obtain ⟨k1, v1⟩ := kv
      by_cases hk : k1 = k
      · subst hk
        simp [setAssoc, findAssoc, Ne.symm hne]
      · by_cases hk2 : k1 = k2 <;> simp [setAssoc, findAssoc, hk, hk2, ih, hne]

theorem findNat_mapSet_self (l : List (Nat × JObj)) (a : Nat) (o : JObj) :
    findNat (mapSet l a o) a = (findNat l a).map (fun _ => o) := by
  induction l with
  | nil => simp [mapSet, findNat]
  | cons kv rest ih =>
      obtain ⟨k, o1⟩ := kv
      by_cases hk : k = a
      · simp [mapSet, findNat, hk]
      · simp [mapSet, findNat, hk, ih]

theorem findNat_mapSet_other (l : List (Nat × JObj)) (a b : Nat) (o : JObj)
    (hne : b ≠ a) : findNat (mapSet l a o) b = findNat l b := by
  induction l with
  | nil => simp [mapSet, findNat]
  | cons kv rest ih =>
      obtain ⟨k, o1⟩ := kv
      by_cases hk : k = a
      · subst hk
        simp [mapSet, findNat, Ne.symm hne, ih]
      · by_cases hk2 : k = b <;> simp [mapSet, findNat, hk, hk2, ih, hne]

theorem mapSet_keys (l : List (Nat × JObj)) (a : Nat) (o : JObj) :
    (mapSet l a o).map Prod.fst = l.map Prod.fst := by
  induction l with
  | nil => simp [mapSet]
  | cons kv rest ih =>
      obtain ⟨k, o1⟩ := kv
      by_cases hk : k = a <;> simp [mapSet, hk, ih]

theorem findNat_isSome_of_keys (l l2 : List (Nat × JObj))
    (hk : l2.map Prod.fst = l.map Prod.fst) (a : Nat) :
    (findNat l2 a).isSome = (findNat l a).isSome := by
  induction l generalizing l2 with
  | nil =>
      cases l2 with
      | nil => rfl
      | cons kv rest => simp at hk
  | cons kv rest ih =>
      cases l2 with
      | nil => simp at hk
      | cons kv2 rest2 =>
          obtain ⟨k, o1⟩ := kv
          obtain ⟨k2, o2⟩ := kv2
          simp only [List.map_cons, List.cons.injEq] at hk
          obtain ⟨hk1, hk2⟩ := hk
          rw [hk1]
          by_cases ha : k = a <;> simp [findNat, ha, ih rest2 hk2]

theorem findNat_mem (l : List (Nat × JObj)) (a : Nat) (o : JObj)
    (hf : findNat l a = some o) : (a, o) ∈ l := by
  induction l with
  | nil => simp [findNat] at hf
  | cons kv rest ih =>
      obtain ⟨k, o1⟩ := kv
      by_cases hk : k = a
      · subst hk
        simp [findNat] at hf
        simp [hf]
      · simp [findNat, hk] at hf
        exact List.mem_cons_of_mem _ (ih hf)

/-! ## Heap operations -/

theorem lookupObj_setObj_self (h : Heap) (a : Addr) (o : JObj) :
    lookupObj (setObj h a o) a = (lookupObj h a).map (fun _ => o) :=
  findNat_mapSet_self h.objs a o

theorem lookupObj_setObj_other (h : Heap) (a b : Addr) (o : JObj) (hne : b ≠ a) :
    lookupObj (setObj h a o) b = lookupObj h b :=
  findNat_mapSet_other h.objs a b o hne

theorem setObj_next (h : Heap) (a : Addr) (o : JObj) : (setObj h a o).next = h.next := rfl

theorem setObj_keys (h : Heap) (a : Addr) (o : JObj) :
    (setObj h a o).objs.map Prod.fst = h.objs.map Prod.fst :=
  mapSet_keys h.objs a o

theorem lookupObj_allocObj_self (h : Heap) (o : JObj) :
    lookupObj (allocObj h o).1 h.next = some o := by
  simp [allocObj, lookupObj, findNat]

theorem lookupObj_allocObj_other (h : Heap) (o : JObj) (a : Addr) (hne : a ≠ h.next) :
    lookupObj (allocObj h o).1 a = lookupObj h a := by
  simp [allocObj, lookupObj, findNat, Ne.symm hne]

theorem allocObj_next (h : Heap) (o : JObj) : (allocObj h o).1.next = h.next + 1 := rfl

theorem allocObj_fst (h : Heap) (o : JObj) : (allocObj h o).2 = h.next := rfl

theorem setProp_next (h : Heap) (a : Addr) (k : String) (v : JVal) :
    (setProp h a k v).next = h.next := by
  unfold setProp
  cases lookupObj h a with
  | none => rfl
  | some o => by_cases hf : o.frozen <;> simp [hf, setObj_next]

theorem lookupObj_setProp_other (h : Heap) (a b : Addr) (k : String) (v : JVal)
    (hne : b ≠ a) : lookupObj (setProp h a k v) b = lookupObj h b := by
  unfold setProp
  cases lookupObj h a with
  | none => rfl
  | some o =>
      by_cases hf : o.frozen
      · simp [hf]
      · simp [hf, lookupObj_setObj_other _ _ _ _ hne]

theorem setProp_frozen (h : Heap) (a : Addr) (k : String) (v : JVal)
    (hfr : isFrozen h a = true) : setProp h a k v = h := by
  unfold setProp
  cases hl : lookupObj h a with
  | none => rfl
  | some o =>
      have hb : o.frozen = true := by unfold isFrozen at hfr; rw [hl] at hfr; exact hfr
      simp [hb]

/-! ## Field combinators -/

theorem bool_and_true {a b : Bool} (hab : (a && b) = true) : a = true ∧ b = true := by
  rw [Bool.and_eq_true] at hab
  exact hab

theorem seqFields_congr {α : Type} {f g : JVal → Option α} (l : List (String × JVal))
    (hfg : ∀ kv ∈ l, f kv.2 = g kv.2) : seqFields f l = seqFields g l := by
  induction l with
  | nil => rfl
  | cons kv rest ih =>
      simp only [seqFields]
      rw [hfg kv (by simp), ih (fun kv2 hm => hfg kv2 (List.mem_cons_of_mem _ hm))]

theorem seqFields_lift {α : Type} {f g : JVal → Option α} (l : List (String × JVal))
    {fs : List (String × α)} (hseq : seqFields f l = some fs)
    (hfg : ∀ kv ∈ l, ∀ t, f kv.2 = some t → g kv.2 = some t) :
    seqFields g l = some fs := by
  induction l generalizing fs with
  | nil => simpa [seqFields] using hseq
  | cons kv rest ih =>
      simp only [seqFields] at hseq ⊢
      cases hf : f kv.2 with
      | none => rw [hf] at hseq; simp at hseq
      | some t =>
          rw [hf] at hseq
          cases hr : seqFields f rest with
          | none => rw [hr] at hseq; simp at hseq
          | some ts =>
              rw [hr] at hseq
              rw [hfg kv (by simp) t hf,
                  ih hr (fun kv2 hm => hfg kv2 (List.mem_cons_of_mem _ hm))]
              exact hseq

theorem seqFields_mem {α : Type} {f : JVal → Option α} (l : List (String × JVal))
    {fs : List (String × α)} (hseq : seqFields f l = some fs) :
    ∀ kv ∈ l, ∃ t, f kv.2 = some t := by
  induction l generalizing fs with
  | nil => simp
  | cons kv rest ih =>
      simp only [seqFields] at hseq
      cases hf : f kv.2 with
      | none => rw [hf] at hseq; simp at hseq
      | some t =>
          rw [hf] at hseq
          cases hr : seqFields f rest with
          | none => rw [hr] at hseq; simp at hseq
          | some ts =>
              intro kv2 hm
              rcases List.mem_cons.mp hm with hm1 | hm2
              · exact ⟨t, hm1 ▸ hf⟩
              · exact ih hr kv2 hm2

theorem seqFields_isSome {α : Type} {f : JVal → Option α} (l : List (String × JVal))
    (hall : ∀ kv ∈ l, (f kv.2).isSome = true) : (seqFields f l).isSome = true := by
  induction l with
  | nil => simp [seqFields]
  | cons kv rest ih =>
      simp only [seqFields]
      cases hf : f kv.2 with
      | none => have := hall kv (by simp); rw [hf] at this; simp at this
      | some t =>
          cases hr : seqFields f rest with
          | none =>
              have := ih (fun kv2 hm => hall kv2 (List.mem_cons_of_mem _ hm))
              rw [hr] at this; simp at this
          | some ts => simp

theorem allFields_forall {f : JVal → Bool} (l : List (String × JVal)) :
    allFields f l = true ↔ ∀ kv ∈ l, f kv.2 = true := by
  induction l with
  | nil => simp [allFields]
  | cons kv rest ih => simp [allFields, ih]

theorem findAssoc_mem {α : Type} (l : List (String × α)) (k : String) (v : α)
    (hf : findAssoc l k = some v) : (k, v) ∈ l := by
  induction l with
  | nil => simp [findAssoc] at hf
  | cons kv rest ih =>
      obtain ⟨k1, v1⟩ := kv
      by_cases hk : k1 = k
      · subst hk
        simp [findAssoc] at hf
        simp [hf]
      · simp [findAssoc, hk] at hf
        exact List.mem_cons_of_mem _ (ih hf)

/-! ## Heap evolutions that preserve data properties -/

theorem propsAt_eq_cases (h h2 : Heap) (a : Addr) (hp : propsAt h2 a = propsAt h a) :
    (lookupObj h a = none ∧ lookupObj h2 a = none) ∨
    ∃ o o2, lookupObj h a = some o ∧ lookupObj h2 a = some o2 ∧ o2.props = o.props := by
  unfold propsAt at hp
  cases h1 : lookupObj h a <;> cases h2l : lookupObj h2 a <;> rw [h1, h2l] at hp <;>
    simp_all

theorem sameProps_getProp {h h2 : Heap} (hsp : SameProps h h2) (a : Addr) (k : String) :
    getProp h2 a k = getProp h a k := by
  rcases propsAt_eq_cases h h2 a (hsp a) with ⟨hn, hn2⟩ | ⟨o, o2, ho, ho2, hpp⟩
  · simp [getProp, hn, hn2]
  · simp [getProp, ho, ho2, hpp]

theorem sameProps_readTree {h h2 : Heap} (hsp : SameProps h h2) :
    ∀ fuel v, readTree h2 fuel v = readTree h fuel v := by
  intro fuel
  induction fuel with
  | zero => intro v; cases v <;> rfl
  | succ fuel ih =>
      intro v
      cases v with
      | vnull => rfl
      | vbool b => rfl
      | vnum n => rfl
      | vstr s => rfl
      | vref a =>
          rcases propsAt_eq_cases h h2 a (hsp a) with ⟨hn, hn2⟩ | ⟨o, o2, ho, ho2, hpp⟩
          · simp [readTree, hn, hn2]
          · simp only [readTree, ho, ho2, hpp]
            rw [seqFields_congr o.props (fun kv _ => ih kv.2)]

theorem sameProps_readPath {h h2 : Heap} (hsp : SameProps h h2) :
    ∀ p v, readPath h2 v p = readPath h v p := by
  intro p
  induction p with
  | nil => intro v; cases v <;> rfl
  | cons k ks ih =>
      intro v
      cases v with
      | vnull => rfl
      | vbool b => rfl
      | vnum n => rfl
      | vstr s => rfl
      | vref a =>
          simp only [readPath, sameProps_getProp hsp a k]
          cases getProp h a k with
          | none => rfl
          | some v1 => exact ih v1

theorem sameProps_closedIn {h h2 : Heap} (hsp : SameProps h h2) :
    ∀ fuel v p, closedIn h2 p fuel v = closedIn h p fuel v := by
  intro fuel
  induction fuel with
  | zero => intro v p; cases v <;> rfl
  | succ fuel ih =>
      intro v p
      cases v with
      | vnull => rfl
      | vbool b => rfl
      | vnum n => rfl
      | vstr s => rfl
      | vref a =>
          rcases propsAt_eq_cases h h2 a (hsp a) with ⟨hn, hn2⟩ | ⟨o, o2, ho, ho2, hpp⟩
          · simp [closedIn, hn, hn2]
          · simp only [closedIn, ho, ho2, hpp]
            have : allFields (closedIn h2 p fuel) o.props
                = allFields (closedIn h p fuel) o.props := by
              induction o.props with
              | nil => rfl
              | cons kv rest ihl => simp [allFields, ih kv.2 p, ihl]
            rw [this]

theorem agreeOn_readTree {p : Nat → Bool} {h h2 : Heap} (hag : AgreeOn p h h2) :
    ∀ fuel v, closedIn h p fuel v = true →
      readTree h2 fuel v = readTree h fuel v ∧ closedIn h2 p fuel v = true := by
  intro fuel
  induction fuel with
  | zero =>
      intro v hc
      cases v <;> simp_all [closedIn, readTree]
  | succ fuel ih =>
      intro v hc
      cases v with
      | vnull => exact ⟨rfl, rfl⟩
      | vbool b => exact ⟨rfl, rfl⟩
      | vnum n => exact ⟨rfl, rfl⟩
      | vstr s => exact ⟨rfl, rfl⟩
      | vref a =>
          unfold closedIn at hc
          obtain ⟨hpa, hrest⟩ := bool_and_true hc
          cases hl : lookupObj h a with
          | none => rw [hl] at hrest; simp at hrest
          | some o =>
              rw [hl] at hrest
              rcases propsAt_eq_cases h h2 a (hag a hpa) with ⟨hn, _⟩ | ⟨o1, o2, ho1, ho2, hpp⟩
              · rw [hl] at hn; simp at hn
              · rw [hl] at ho1
                injection ho1 with ho1
                subst ho1
                have hmem : ∀ kv ∈ o.props, closedIn h p fuel kv.2 = true :=
                  (allFields_forall o.props).mp hrest
                constructor
                · simp only [readTree, hl, ho2, hpp]
                  rw [seqFields_congr o.props (fun kv hm => (ih kv.2 (hmem kv hm)).1)]
                · unfold closedIn
                  rw [Bool.and_eq_true]
                  refine ⟨hpa, ?_⟩
                  rw [ho2]
                  show allFields (closedIn h2 p fuel) o2.props = true
                  rw [hpp]
                  exact (allFields_forall o.props).mpr
                    (fun kv hm => (ih kv.2 (hmem kv hm)).2)

theorem closedIn_mono_pred {h : Heap} {p q : Nat → Bool}
    (hpq : ∀ a, p a = true → q a = true) :
    ∀ fuel v, closedIn h p fuel v = true → closedIn h q fuel v = true := by
  intro fuel
  induction fuel with
  | zero => intro v hc; cases v <;> simp_all [closedIn]
  | succ fuel ih =>
      intro v hc
      cases v with
      | vnull => rfl
      | vbool b => rfl
      | vnum n => rfl
      | vstr s => rfl
      | vref a =>
          unfold closedIn at hc ⊢
          obtain ⟨hpa, hrest⟩ := bool_and_true hc
          rw [Bool.and_eq_true]
          refine ⟨hpq a hpa, ?_⟩
          cases hl : lookupObj h a with
          | none => rw [hl] at hrest; simp at hrest
          | some o =>
              rw [hl] at hrest
              exact (allFields_forall o.props).mpr
                (fun kv hm => ih kv.2 ((allFields_forall o.props).mp hrest kv hm))

theorem closedIn_readPath (h : Heap) (p : Nat → Bool) :
    ∀ q fuel v b, closedIn h p fuel v = true →
      readPath h v q = some (.vref b) → p b = true := by
  intro q
  induction q with
  | nil =>
      intro fuel v b hc hp
      simp only [readPath] at hp
      injection hp with hp
      subst hp
      cases fuel with
      | zero => simp [closedIn] at hc
      | succ fuel => exact (bool_and_true hc).1
  | cons k ks ih =>
      intro fuel v b hc hp
      cases v with
      | vnull => simp [readPath] at hp
      | vbool b2 => simp [readPath] at hp
      | vnum n => simp [readPath] at hp
      | vstr s => simp [readPath] at hp
      | vref a =>
          cases fuel with
          | zero => simp [closedIn] at hc
          | succ fuel =>
              obtain ⟨hpa, hrest⟩ := bool_and_true hc
              simp only [readPath] at hp
              cases hg : getProp h a k with
              | none => rw [hg] at hp; simp at hp
              | some v1 =>
                  rw [hg] at hp
                  unfold getProp at hg
                  cases hl : lookupObj h a with
                  | none => rw [hl] at hg; simp at hg
                  | some o =>
                      rw [hl] at hg
                      rw [hl] at hrest
                      have hm := findAssoc_mem o.props k v1 hg
                      have hcv := (allFields_forall o.props).mp hrest (k, v1) hm
                      exact ih fuel v1 b hcv hp

theorem closedIn_refOK {h : Heap} {p : Nat → Bool} {fuel : Nat} {v : JVal}
    (hc : closedIn h p fuel v = true) : valRefOK h v = true := by
  cases v with
  | vnull => rfl
  | vbool b => rfl
  | vnum n => rfl
  | vstr s => rfl
  | vref a =>
      cases fuel with
      | zero => simp [closedIn] at hc
      | succ fuel =>
          obtain ⟨_, hrest⟩ := bool_and_true hc
          show (lookupObj h a).isSome = true
          cases hl : lookupObj h a with
          | none => rw [hl] at hrest; simp at hrest
          | some o => rfl

theorem readTree_mono (h : Heap) :
    ∀ fuel v t, readTree h fuel v = some t → readTree h (fuel + 1) v = some t := by
  intro fuel
  induction fuel with
  | zero =>
      intro v t hr
      cases v <;> simp_all [readTree]
  | succ fuel ih =>
      intro v t hr
      cases v with
      | vnull => exact hr
      | vbool b => exact hr
      | vnum n => exact hr
      | vstr s => exact hr
      | vref a =>
          cases hl : lookupObj h a with
          | none => simp [readTree, hl] at hr
          | some o =>
              cases hs : seqFields (readTree h fuel) o.props with
              | none => simp [readTree, hl, hs] at hr
              | some fs =>
                  simp only [readTree, hl, hs] at hr
                  simp only [readTree, hl,
                    seqFields_lift o.props hs (fun kv _ t2 ht2 => ih kv.2 t2 ht2)]
                  exact hr

theorem readTree_le (h : Heap) {fuel fuel2 : Nat} (hle : fuel ≤ fuel2) :
    ∀ v t, readTree h fuel v = some t → readTree h fuel2 v = some t := by
  induction fuel2 with
  | zero =>
      intro v t hr
      have : fuel = 0 := Nat.le_zero.mp hle
      subst this
      exact hr
  | succ fuel2 ih =>
      intro v t hr
      rcases Nat.lt_or_ge fuel (fuel2 + 1) with hlt | hge
      · have hle2 : fuel ≤ fuel2 := Nat.lt_succ_iff.mp hlt
        exact readTree_mono h fuel2 v t (ih hle2 v t hr)
      · have : fuel = fuel2 + 1 := Nat.le_antisymm hle hge
        subst this
        exact hr

/-! ## Well-formedness -/

theorem wf_nodup (h : Heap) (hwf : h.WF) : (h.objs.map Prod.fst).Nodup := by
  unfold Heap.WF Heap.wfBool at hwf
  obtain ⟨h1, _⟩ := bool_and_true hwf
  exact of_decide_eq_true h1

theorem wf_entry (h : Heap) (hwf : h.WF) {p : Addr × JObj} (hm : p ∈ h.objs) :
    p.1 < h.next ∧ ∀ kv ∈ p.2.props, valRefOK h kv.2 = true := by
  unfold Heap.WF Heap.wfBool at hwf
  obtain ⟨_, h2⟩ := bool_and_true hwf
  have hone := List.all_eq_true.mp h2 p hm
  obtain ⟨hb, hc⟩ := bool_and_true hone
  exact ⟨of_decide_eq_true hb, fun kv hkv => List.all_eq_true.mp hc kv hkv⟩

theorem wf_lookup_lt (h : Heap) (hwf : h.WF) (a : Addr) (o : JObj)
    (hl : lookupObj h a = some o) : a < h.next :=
  (wf_entry h hwf (findNat_mem h.objs a o hl)).1

theorem wf_lookup_refOK (h : Heap) (hwf : h.WF) (a : Addr) (o : JObj)
    (hl : lookupObj h a = some o) : ∀ kv ∈ o.props, valRefOK h kv.2 = true :=
  (wf_entry h hwf (findNat_mem h.objs a o hl)).2

theorem findNat_of_nodup_mem (l : List (Nat × JObj)) (hnd : (l.map Prod.fst).Nodup)
    (a : Nat) (o : JObj) (hm : (a, o) ∈ l) : findNat l a = some o := by
  induction l with
  | nil => simp at hm
  | cons kv rest ih =>
      obtain ⟨k, o1⟩ := kv
      simp only [List.map_cons, List.nodup_cons] at hnd
      obtain ⟨hkn, hnd2⟩ := hnd
      rcases List.mem_cons.mp hm with heq | hm2
      · injection heq with h1 h2
        subst h1
        subst h2
        simp [findNat]
      · have hka : ¬ k = a := by
          intro hka
          subst hka
          exact hkn (List.mem_map.mpr ⟨(k, o), hm2, rfl⟩)
      
        simp [findNat, hka, ih hnd2 hm2]

theorem wf_of_keys_props (h h2 : Heap)
    (hk : h2.objs.map Prod.fst = h.objs.map Prod.fst)
    (hn : h2.next = h.next)
    (hp : ∀ a, propsAt h2 a = propsAt h a)
    (hwf : h.WF) : h2.WF := by
  unfold Heap.WF Heap.wfBool
  rw [Bool.and_eq_true]
  constructor
  · apply decide_eq_true
    rw [hk]
    exact wf_nodup h hwf
  · apply List.all_eq_true.mpr
    intro q hq
    obtain ⟨a, o2⟩ := q
    have hnd2 : (h2.objs.map Prod.fst).Nodup := by rw [hk]; exact wf_nodup h hwf
    have hl2 : lookupObj h2 a = some o2 := findNat_of_nodup_mem h2.objs hnd2 a o2 hq
    rcases propsAt_eq_cases h h2 a (hp a) with ⟨hn1, hn2⟩ | ⟨o, o2b, ho, ho2, hpp⟩
    · rw [hl2] at hn2; exact absurd hn2 (by simp)
    · rw [hl2] at ho2
      injection ho2 with ho2
      subst ho2
      rw [Bool.and_eq_true]
      constructor
      · exact decide_eq_true (hn ▸ wf_lookup_lt h hwf a o ho)
      · apply List.all_eq_true.mpr
        intro kv hkv
        rw [hpp] at hkv
        have hok := wf_lookup_refOK h hwf a o ho kv hkv
        cases hv : kv.2 with
        | vref b =>
            rw [hv] at hok
            show (lookupObj h2 b).isSome = true
            rw [show (lookupObj h2 b).isSome = (lookupObj h b).isSome from
              findNat_isSome_of_keys h.objs h2.objs hk b]
            exact hok
        | vnull => rfl
        | vbool b => rfl
        | vnum n => rfl
        | vstr s => rfl

theorem valRefOK_alloc (h : Heap) (o : JObj) (v : JVal) (hok : valRefOK h v = true) :
    valRefOK (allocObj h o).1 v = true := by
  cases v with
  | vref b =>
      show (lookupObj (allocObj h o).1 b).isSome = true
      by_cases hb : b = h.next
      · subst hb
        rw [lookupObj_allocObj_self]
        rfl
      · rw [lookupObj_allocObj_other h o b hb]
        exact hok
  | vnull => rfl
  | vbool b => rfl
  | vnum n => rfl
  | vstr s => rfl

theorem wf_alloc (h : Heap) (o : JObj) (hwf : h.WF)
    (hprops : ∀ kv ∈ o.props, valRefOK h kv.2 = true) : (allocObj h o).1.WF := by
  unfold Heap.WF Heap.wfBool
  rw [Bool.and_eq_true]
  constructor
  · apply decide_eq_true
    show (((h.next, o) :: h.objs).map Prod.fst).Nodup
    rw [List.map_cons]
    apply List.nodup_cons.mpr
    constructor
    · intro hmem
      obtain ⟨q, hq, hq2⟩ := List.mem_map.mp hmem
      exact absurd hq2 (Nat.ne_of_lt (wf_entry h hwf hq).1)
    · exact wf_nodup h hwf
  · apply List.all_eq_true.mpr
    intro q hq
    rcases List.mem_cons.mp hq with heq | hm
    · subst heq
      rw [Bool.and_eq_true]
      refine ⟨decide_eq_true ?_, ?_⟩
      · exact Nat.lt_succ_self _
      · exact List.all_eq_true.mpr fun kv hkv => valRefOK_alloc h o kv.2 (hprops kv hkv)
    · rw [Bool.and_eq_true]
      refine ⟨decide_eq_true ?_, ?_⟩
      · exact Nat.lt_succ_of_lt (wf_entry h hwf hm).1
      · exact List.all_eq_true.mpr fun kv hkv =>
          valRefOK_alloc h o kv.2 ((wf_entry h hwf hm).2 kv hkv)

/-! ## Readback -/

theorem readTree_closed (h : Heap) (hwf : h.WF) :
    ∀ fuel v t, readTree h fuel v = some t →
      closedIn h (belowPred h.next) fuel v = true := by
  intro fuel
  induction fuel with
  | zero =>
      intro v t hr
      cases v <;> simp_all [readTree, closedIn]
  | succ fuel ih =>
      intro v t hr
      cases v with
      | vnull => rfl
      | vbool b => rfl
      | vnum n => rfl
      | vstr s => rfl
      | vref a =>
          cases hl : lookupObj h a with
          | none => simp [readTree, hl] at hr
          | some o =>
              cases hs : seqFields (readTree h fuel) o.props with
              | none => simp [readTree, hl, hs] at hr
              | some fs =>
                  unfold closedIn
                  rw [Bool.and_eq_true]
                  constructor
                  · exact decide_eq_true (wf_lookup_lt h hwf a o hl)
                  · rw [hl]
                    show allFields (closedIn h (belowPred h.next) fuel) o.props = true
                    apply (allFields_forall o.props).mpr
                    intro kv hm
                    obtain ⟨t2, ht2⟩ := seqFields_mem o.props hs kv hm
                    exact ih kv.2 t2 ht2

theorem readTree_frame_low (h h2 : Heap) (hwf : h.WF)
    (hframe : ∀ a, a < h.next → lookupObj h2 a = lookupObj h a) :
    ∀ fuel v, valRefOK h v = true → readTree h2 fuel v = readTree h fuel v := by
  intro fuel
  induction fuel with
  | zero => intro v hok; cases v <;> rfl
  | succ fuel ih =>
      intro v hok
      cases v with
      | vnull => rfl
      | vbool b => rfl
      | vnum n => rfl
      | vstr s => rfl
      | vref a =>
          cases hl : lookupObj h a with
          | none =>
              have : (lookupObj h a).isSome = true := hok
              rw [hl] at this
              simp at this
          | some o =>
              have hlt := wf_lookup_lt h hwf a o hl
              have hl2 : lookupObj h2 a = some o := by rw [hframe a hlt, hl]
              simp only [readTree, hl, hl2]
              rw [seqFields_congr o.props
                (fun kv hm => ih kv.2 (wf_lookup_refOK h hwf a o hl kv hm))]

/-! ## Freeze-only evolutions -/

theorem freezeOnly_refl (h : Heap) : FreezeOnly h h :=
  ⟨fun _ => rfl, fun _ => rfl, fun _ hf => hf, rfl, rfl⟩

theorem freezeOnly_trans {h1 h2 h3 : Heap} (h12 : FreezeOnly h1 h2)
    (h23 : FreezeOnly h2 h3) : FreezeOnly h1 h3 :=
  ⟨fun a => (h23.1 a).trans (h12.1 a),
   fun a => (h23.2.1 a).trans (h12.2.1 a),
   fun a hf => h23.2.2.1 a (h12.2.2.1 a hf),
   h23.2.2.2.1.trans h12.2.2.2.1,
   h23.2.2.2.2.trans h12.2.2.2.2⟩

theorem freezeOnly_setObj_freeze (h : Heap) (a : Addr) (o : JObj)
    (hl : lookupObj h a = some o) :
    FreezeOnly h (setObj h a { o with frozen := true }) := by
  refine ⟨?_, ?_, ?_, rfl, setObj_keys h a _⟩
  · intro a2
    by_cases ha : a2 = a
    · subst ha
      unfold propsAt
      rw [lookupObj_setObj_self, hl]
      rfl
    · unfold propsAt
      rw [lookupObj_setObj_other h a a2 _ ha]
  · intro a2
    by_cases ha : a2 = a
    · subst ha
      unfold methodsAt
      rw [lookupObj_setObj_self, hl]
      rfl
    · unfold methodsAt
      rw [lookupObj_setObj_other h a a2 _ ha]
  · intro a2 hf
    by_cases ha : a2 = a
    · subst ha
      unfold isFrozen
      rw [lookupObj_setObj_self, hl]
      rfl
    · unfold isFrozen at hf ⊢
      rw [lookupObj_setObj_other h a a2 _ ha]
      exact hf

theorem foldFields_freezeOnly (f : Heap → JVal → Heap)
    (hf : ∀ h v, FreezeOnly h (f h v)) :
    ∀ l h, FreezeOnly h (foldFields f h l) := by
  intro l
  induction l with
  | nil => intro h; exact freezeOnly_refl h
  | cons kv rest ih =>
      intro h
      exact freezeOnly_trans (hf h kv.2) (ih (f h kv.2))

theorem freezeDeep_freezeOnly : ∀ fuel v h, FreezeOnly h (freezeDeep fuel h v) := by
  intro fuel
  induction fuel with
  | zero => intro v h; exact freezeOnly_refl h
  | succ fuel ih =>
      intro v h
      cases v with
      | vnull => exact freezeOnly_refl h
      | vbool b => exact freezeOnly_refl h
      | vnum n => exact freezeOnly_refl h
      | vstr s => exact freezeOnly_refl h
      | vref a =>
          show FreezeOnly h (freezeDeep (fuel + 1) h (.vref a))
          cases hl : lookupObj h a with
          | none => simp only [freezeDeep, hl]; exact freezeOnly_refl h
          | some o =>
              simp only [freezeDeep, hl]
              have hfold : FreezeOnly h (foldFields (freezeDeep fuel) h o.props) :=
                foldFields_freezeOnly (freezeDeep fuel) (fun h2 v2 => ih v2 h2) o.props h
              cases hl1 : lookupObj (foldFields (freezeDeep fuel) h o.props) a with
              | none => exact hfold
              | some o1 =>
                  exact freezeOnly_trans hfold
                    (freezeOnly_setObj_freeze _ a o1 hl1)

theorem freezeOnly_sameProps {h h2 : Heap} (hfo : FreezeOnly h h2) : SameProps h h2 :=
  hfo.1

theorem freezeOnly_wf {h h2 : Heap} (hfo : FreezeOnly h h2) (hwf : h.WF) : h2.WF :=
  wf_of_keys_props h h2 hfo.2.2.2.2 hfo.2.2.2.1 hfo.1 hwf

/-! ## Method installation -/

theorem addMethod_cases (h : Heap) (a : Addr) (k : String) (m : MethodClosure) :
    addMethod h a k m = h ∨
    ∃ o, lookupObj h a = some o ∧ o.frozen = false ∧
      addMethod h a k m = setObj h a { o with methods := setAssoc o.methods k m } := by
  unfold addMethod
  cases hl : lookupObj h a with
  | none => exact Or.inl rfl
  | some o =>
      by_cases hf : o.frozen
      · exact Or.inl (by simp [hf])
      · refine Or.inr ⟨o, rfl, ?_, ?_⟩
        · simpa using hf
        · simp [hf]

theorem setObj_methods_sameProps (h : Heap) (a : Addr) (o : JObj) (ms : List (String × MethodClosure))
    (hl : lookupObj h a = some o) :
    SameProps h (setObj h a { o with methods := ms }) := by
  intro a2
  by_cases ha : a2 = a
  · subst ha
    unfold propsAt
    rw [lookupObj_setObj_self, hl]
    rfl
  · unfold propsAt
    rw [lookupObj_setObj_other h a a2 _ ha]

theorem addMethod_sameProps (h : Heap) (a : Addr) (k : String) (m : MethodClosure) :
    SameProps h (addMethod h a k m) := by
  rcases addMethod_cases h a k m with heq | ⟨o, hl, _, heq⟩
  · rw [heq]; exact fun _ => rfl
  · rw [heq]; exact setObj_methods_sameProps h a o _ hl

theorem addMethod_keys (h : Heap) (a : Addr) (k : String) (m : MethodClosure) :
    (addMethod h a k m).objs.map Prod.fst = h.objs.map Prod.fst := by
  rcases addMethod_cases h a k m with heq | ⟨o, hl, _, heq⟩
  · rw [heq]
  · rw [heq]; exact setObj_keys h a _

theorem addMethod_next (h : Heap) (a : Addr) (k : String) (m : MethodClosure) :
    (addMethod h a k m).next = h.next := by
  rcases addMethod_cases h a k m with heq | ⟨o, hl, _, heq⟩
  · rw [heq]
  · rw [heq]; rfl

theorem addMethod_wf (h : Heap) (a : Addr) (k : String) (m : MethodClosure)
    (hwf : h.WF) : (addMethod h a k m).WF :=
  wf_of_keys_props h _ (addMethod_keys h a k m) (addMethod_next h a k m)
    (addMethod_sameProps h a k m) hwf

theorem addMethod_frozen (h : Heap) (a : Addr) (k : String) (m : MethodClosure)
    (a2 : Addr) : isFrozen (addMethod h a k m) a2 = isFrozen h a2 := by
  rcases addMethod_cases h a k m with heq | ⟨o, hl, hfr, heq⟩
  · rw [heq]
  · rw [heq]
    by_cases ha : a2 = a
    · subst ha
      unfold isFrozen
      rw [lookupObj_setObj_self, hl]
      simp [hfr]
    · unfold isFrozen
      rw [lookupObj_setObj_other h a a2 _ ha]

theorem methodsAt_addMethod_self (h : Heap) (a : Addr) (k : String) (m : MethodClosure)
    (o : JObj) (hl : lookupObj h a = some o) (hfr : o.frozen = false) :
    methodsAt (addMethod h a k m) a = some (setAssoc o.methods k m) := by
  have heq : addMethod h a k m = setObj h a { o with methods := setAssoc o.methods k m } := by
    unfold addMethod
    rw [hl]
    show (if o.frozen = true then h
      else setObj h a { o with methods := setAssoc o.methods k m }) = _
    rw [hfr]
    rfl
  rw [heq]
  unfold methodsAt
  rw [lookupObj_setObj_self, hl]
  rfl

/-! ## Range predicates -/

theorem rangePred_true {m n a : Nat} : rangePred m n a = true ↔ m ≤ a ∧ a < n := by
  unfold rangePred
  rw [Bool.and_eq_true]
  simp

theorem belowPred_true {n a : Nat} : belowPred n a = true ↔ a < n := by
  unfold belowPred
  simp

theorem rangePred_widen {m m2 n n2 : Nat} (hm : m2 ≤ m) (hn : n ≤ n2) (a : Nat)
    (hp : rangePred m n a = true) : rangePred m2 n2 a = true := by
  rw [rangePred_true] at hp ⊢
  omega

theorem rangePred_below {m n : Nat} (a : Nat) (hp : rangePred m n a = true) :
    belowPred n a = true := by
  rw [rangePred_true] at hp
  rw [belowPred_true]
  exact hp.2

theorem valRefOK_frame (h hm : Heap) (hwf : h.WF)
    (hframe : ∀ a, a < h.next → lookupObj hm a = lookupObj h a) (v : JVal)
    (hok : valRefOK h v = true) : valRefOK hm v = true := by
  cases v with
  | vref b =>
      show (lookupObj hm b).isSome = true
      have hsome : (lookupObj h b).isSome = true := hok
      cases hl : lookupObj h b with
      | none => rw [hl] at hsome; simp at hsome
      | some o =>
          rw [hframe b (wf_lookup_lt h hwf b o hl), hl]
          rfl
  | vnull => rfl
  | vbool b => rfl
  | vnum n => rfl
  | vstr s => rfl

/-! ## The deep-copy specification -/

theorem cloneFields_spec (fuel : Nat)
    (IH : ∀ h v h2 v2, h.WF → cloneDeep fuel h v = some (h2, v2) →
      h.next ≤ h2.next ∧ h2.WF ∧
      (∀ a, a < h.next → lookupObj h2 a = lookupObj h a) ∧
      readTree h2 fuel v2 = readTree h fuel v ∧
      (readTree h fuel v).isSome = true ∧
      closedIn h2 (rangePred h.next h2.next) fuel v2 = true) :
    ∀ l h h2 l2, h.WF → (∀ kv ∈ l, valRefOK h kv.2 = true) →
      cloneFieldsWith (cloneDeep fuel) h l = some (h2, l2) →
      h.next ≤ h2.next ∧ h2.WF ∧
      (∀ a, a < h.next → lookupObj h2 a = lookupObj h a) ∧
      seqFields (readTree h2 fuel) l2 = seqFields (readTree h fuel) l ∧
      (seqFields (readTree h fuel) l).isSome = true ∧
      allFields (closedIn h2 (rangePred h.next h2.next) fuel) l2 = true := by
  intro l
  induction l with
  | nil =>
      intro h h2 l2 hwf hvals hcf
      simp only [cloneFieldsWith, Option.some.injEq, Prod.mk.injEq] at hcf
      obtain ⟨rfl, rfl⟩ := hcf
      exact ⟨Nat.le_refl _, hwf, fun a _ => rfl, rfl, rfl, rfl⟩
  | cons kv rest ihl =>
      intro h h2 l2 hwf hvals hcf
      obtain ⟨k, v⟩ := kv
      simp only [cloneFieldsWith] at hcf
      cases hc1 : cloneDeep fuel h v with
      | none => simp [hc1] at hcf
      | some p1 =>
          obtain ⟨hm, v1⟩ := p1
          simp only [hc1] at hcf
          cases hc2 : cloneFieldsWith (cloneDeep fuel) hm rest with
          | none => simp [hc2] at hcf
          | some p2 =>
              obtain ⟨h2b, vs⟩ := p2
              simp only [hc2, Option.some.injEq, Prod.mk.injEq] at hcf
              obtain ⟨rfl, rfl⟩ := hcf
              obtain ⟨M1, M2, M3, M4, M5, M6⟩ := IH h v hm v1 hwf hc1
              have hvrest : ∀ kv2 ∈ rest, valRefOK hm kv2.2 = true := fun kv2 hm2 =>
                valRefOK_frame h hm hwf M3 kv2.2 (hvals kv2 (List.mem_cons_of_mem _ hm2))
              obtain ⟨R1, R2, R3, R4, R5, R6⟩ := ihl hm h2b vs M2 hvrest hc2
              have EQrest : seqFields (readTree hm fuel) rest
                  = seqFields (readTree h fuel) rest :=
                seqFields_congr rest (fun kv2 hm2 =>
                  readTree_frame_low h hm hwf M3 fuel kv2.2
                    (hvals kv2 (List.mem_cons_of_mem _ hm2)))
              have hag : AgreeOn (rangePred h.next hm.next) hm h2b := by
                intro a hpa
                unfold propsAt
                rw [R3 a (rangePred_true.mp hpa).2]
              have hhead := agreeOn_readTree hag fuel v1 M6
              refine ⟨Nat.le_trans M1 R1, R2, ?_, ?_, ?_, ?_⟩
              · intro a ha
                rw [R3 a (Nat.lt_of_lt_of_le ha M1)]
                exact M3 a ha
              · show seqFields (readTree h2b fuel) ((k, v1) :: vs)
                    = seqFields (readTree h fuel) ((k, v) :: rest)
                simp only [seqFields]
                rw [hhead.1, M4, R4, EQrest]
              · have hv5 : (readTree h fuel v).isSome = true := M5
                have hr5 : (seqFields (readTree h fuel) rest).isSome = true :=
                  EQrest ▸ R5
                obtain ⟨t, ht⟩ := Option.isSome_iff_exists.mp hv5
                obtain ⟨ts, hts⟩ := Option.isSome_iff_exists.mp hr5
                simp [seqFields, ht, hts]
              · show allFields (closedIn h2b (rangePred h.next h2b.next) fuel)
                    ((k, v1) :: vs) = true
                simp only [allFields]
                rw [Bool.and_eq_true]
                constructor
                · exact closedIn_mono_pred
                    (fun a => rangePred_widen (Nat.le_refl _) R1 a) fuel v1 hhead.2
                · exact (allFields_forall vs).mpr (fun kv2 hm2 =>
                    closedIn_mono_pred (fun a => rangePred_widen M1 (Nat.le_refl _) a)
                      fuel kv2.2 ((allFields_forall vs).mp R6 kv2 hm2))

theorem cloneDeep_spec :
    ∀ fuel h v h2 v2, h.WF → cloneDeep fuel h v = some (h2, v2) →
      h.next ≤ h2.next ∧ h2.WF ∧
      (∀ a, a < h.next → lookupObj h2 a = lookupObj h a) ∧
      readTree h2 fuel v2 = readTree h fuel v ∧
      (readTree h fuel v).isSome = true ∧
      closedIn h2 (rangePred h.next h2.next) fuel v2 = true := by
  intro fuel
  induction fuel with
  | zero =>
      intro h v h2 v2 hwf hc
      cases v with
      | vref a => simp [cloneDeep] at hc
      | vnull =>
          simp only [cloneDeep, Option.some.injEq, Prod.mk.injEq] at hc
          obtain ⟨rfl, rfl⟩ := hc
          exact ⟨Nat.le_refl _, hwf, fun a _ => rfl, rfl, rfl, rfl⟩
      | vbool b =>
          simp only [cloneDeep, Option.some.injEq, Prod.mk.injEq] at hc
          obtain ⟨rfl, rfl⟩ := hc
          exact ⟨Nat.le_refl _, hwf, fun a _ => rfl, rfl, rfl, rfl⟩
      | vnum n =>
          simp only [cloneDeep, Option.some.injEq, Prod.mk.injEq] at hc
          obtain ⟨rfl, rfl⟩ := hc
          exact ⟨Nat.le_refl _, hwf, fun a _ => rfl, rfl, rfl, rfl⟩
      | vstr s =>
          simp only [cloneDeep, Option.some.injEq, Prod.mk.injEq] at hc
          obtain ⟨rfl, rfl⟩ := hc
          exact ⟨Nat.le_refl _, hwf, fun a _ => rfl, rfl, rfl, rfl⟩
  | succ fuel ih =>
      intro h v h2 v2 hwf hc
      cases v with
      | vnull =>
          simp only [cloneDeep, Option.some.injEq, Prod.mk.injEq] at hc
          obtain ⟨rfl, rfl⟩ := hc
          exact ⟨Nat.le_refl _, hwf, fun a _ => rfl, rfl, rfl, rfl⟩
      | vbool b =>
          simp only [cloneDeep, Option.some.injEq, Prod.mk.injEq] at hc
          obtain ⟨rfl, rfl⟩ := hc
          exact ⟨Nat.le_refl _, hwf, fun a _ => rfl, rfl, rfl, rfl⟩
      | vnum n =>
          simp only [cloneDeep, Option.some.injEq, Prod.mk.injEq] at hc
          obtain ⟨rfl, rfl⟩ := hc
          exact ⟨Nat.le_refl _, hwf, fun a _ => rfl, rfl, rfl, rfl⟩
      | vstr s =>
          simp only [cloneDeep, Option.some.injEq, Prod.mk.injEq] at hc
          obtain ⟨rfl, rfl⟩ := hc
          exact ⟨Nat.le_refl _, hwf, fun a _ => rfl, rfl, rfl, rfl⟩
      | vref a =>
          cases hl : lookupObj h a with
          | none => simp [cloneDeep, hl] at hc
          | some o =>
              cases hcf : cloneFieldsWith (cloneDeep fuel) h o.props with
              | none => simp [cloneDeep, hl, hcf] at hc
              | some p =>
                  obtain ⟨h1, ps⟩ := p
                  simp only [cloneDeep, hl, hcf, Option.some.injEq, Prod.mk.injEq] at hc
                  obtain ⟨rfl, rfl⟩ := hc
                  have hvals := wf_lookup_refOK h hwf a o hl
                  obtain ⟨B1, B2, B3, B4, B5, B6⟩ :=
                    cloneFields_spec fuel ih o.props h h1 ps hwf hvals hcf
                  obtain ⟨fs, hfs⟩ := Option.isSome_iff_exists.mp B5
                  have hps : seqFields (readTree h1 fuel) ps = some fs := by
                    rw [B4, hfs]
                  have hagA : AgreeOn (rangePred h.next h1.next) h1
                      (allocObj h1 ⟨ps, [], false⟩).1 := by
                    intro a2 hpa
                    unfold propsAt
                    rw [lookupObj_allocObj_other h1 _ a2
                      (Nat.ne_of_lt (rangePred_true.mp hpa).2)]
                  have hmemc : ∀ kv ∈ ps,
                      closedIn h1 (rangePred h.next h1.next) fuel kv.2 = true :=
                    (allFields_forall ps).mp B6
                  have hpsA : seqFields (readTree (allocObj h1 ⟨ps, [], false⟩).1 fuel) ps
                      = some fs := by
                    rw [seqFields_congr ps (fun kv hm =>
                      (agreeOn_readTree hagA fuel kv.2 (hmemc kv hm)).1)]
                    exact hps
                  refine ⟨?_, ?_, ?_, ?_, ?_, ?_⟩
                  · exact Nat.le_trans B1 (Nat.le_succ _)
                  · exact wf_alloc h1 ⟨ps, [], false⟩ B2
                      (fun kv hkv => closedIn_refOK (hmemc kv hkv))
                  · intro a2 ha2
                    rw [lookupObj_allocObj_other h1 _ a2
                      (Nat.ne_of_lt (Nat.lt_of_lt_of_le ha2 B1))]
                    exact B3 a2 ha2
                  · rw [show (allocObj h1 ⟨ps, [], false⟩).2 = h1.next from rfl]
                    simp only [readTree, lookupObj_allocObj_self, hl, hpsA, hfs]
                  · simp [readTree, hl, hfs]
                  · rw [show (allocObj h1 ⟨ps, [], false⟩).2 = h1.next from rfl]
                    unfold closedIn
                    rw [Bool.and_eq_true]
                    constructor
                    · rw [rangePred_true]
                      exact ⟨B1, Nat.lt_succ_self _⟩
                    · rw [lookupObj_allocObj_self]
                      show allFields (closedIn (allocObj h1 ⟨ps, [], false⟩).1
                        (rangePred h.next (allocObj h1 ⟨ps, [], false⟩).1.next) fuel) ps = true
                      apply (allFields_forall ps).mpr
                      intro kv hm
                      apply closedIn_mono_pred
                        (fun a2 => rangePred_widen (Nat.le_refl _) (Nat.le_succ _) a2)
                      exact (agreeOn_readTree hagA fuel kv.2 (hmemc kv hm)).2

/-! ## Deep-freeze freezes everything reachable -/

theorem isFrozen_setObj_freeze (h : Heap) (a : Addr) (o : JObj)
    (hl : lookupObj h a = some o) :
    isFrozen (setObj h a { o with frozen := true }) a = true := by
  unfold isFrozen
  rw [lookupObj_setObj_self, hl]
  rfl

theorem foldFields_preserves (f : Heap → JVal → Heap) (Q : Heap → Prop)
    (hQ : ∀ h v, Q h → Q (f h v)) :
    ∀ l h, Q h → Q (foldFields f h l) := by
  intro l
  induction l with
  | nil => intro h hq; exact hq
  | cons kv rest ih => intro h hq; exact ih (f h kv.2) (hQ h kv.2 hq)

theorem foldFields_establishes (f : Heap → JVal → Heap) (P Q : Heap → Prop) (v0 : JVal)
    (hP : ∀ h v, P h → P (f h v)) (hQ : ∀ h v, Q h → Q (f h v))
    (hPQ : ∀ h, P h → Q (f h v0)) :
    ∀ l h, (∃ k0, (k0, v0) ∈ l) → P h → Q (foldFields f h l) := by
  intro l
  induction l with
  | nil =>
      intro h hmem _
      obtain ⟨k0, hk0⟩ := hmem
      simp at hk0
  | cons kv rest ih =>
      intro h hmem hp
      obtain ⟨k0, hk0⟩ := hmem
      rcases List.mem_cons.mp hk0 with heq | hm2
      · have hv : kv.2 = v0 := by rw [← heq]
        show Q (foldFields f (f h kv.2) rest)
        apply foldFields_preserves f Q hQ rest
        rw [hv]
        exact hPQ h hp
      · exact ih (f h kv.2) ⟨k0, hm2⟩ (hP h kv.2 hp)

theorem freezeDeep_freezes :
    ∀ fuel v h t p b, readTree h fuel v = some t →
      readPath h v p = some (.vref b) →
      isFrozen (freezeDeep fuel h v) b = true := by
  intro fuel
  induction fuel with
  | zero =>
      intro v h t p b hr hp
      cases v with
      | vref a => simp [readTree] at hr
      | vnull => cases p <;> simp [readPath] at hp
      | vbool b2 => cases p <;> simp [readPath] at hp
      | vnum n => cases p <;> simp [readPath] at hp
      | vstr s => cases p <;> simp [readPath] at hp
  | succ fuel ih =>
      intro v h t p b hr hp
      cases v with
      | vnull => cases p <;> simp [readPath] at hp
      | vbool b2 => cases p <;> simp [readPath] at hp
      | vnum n => cases p <;> simp [readPath] at hp
      | vstr s => cases p <;> simp [readPath] at hp
      | vref a =>
          cases hl : lookupObj h a with
          | none => simp [readTree, hl] at hr
          | some o =>
              have hfo1 : FreezeOnly h (foldFields (freezeDeep fuel) h o.props) :=
                foldFields_freezeOnly (freezeDeep fuel)
                  (fun h3 v3 => freezeDeep_freezeOnly fuel v3 h3) o.props h
              have hQfin : ∀ h1 : Heap,
                  isFrozen h1 b = true →
                  isFrozen
                    (match lookupObj h1 a with
                     | none => h1
                     | some o1 => setObj h1 a { o1 with frozen := true }) b = true := by
                intro h1 hq
                cases hl1 : lookupObj h1 a with
                | none => exact hq
                | some o1 =>
                    exact (freezeOnly_setObj_freeze h1 a o1 hl1).2.2.1 b hq
              cases p with
              | nil =>
                  simp only [readPath, Option.some.injEq] at hp
                  have hab : a = b := by
                    injection hp
                  subst hab
                  simp only [freezeDeep, hl]
                  cases hl1 : lookupObj (foldFields (freezeDeep fuel) h o.props) a with
                  | none =>
                      have hks := hfo1.2.2.2.2
                      have hiso := findNat_isSome_of_keys h.objs _ hks a
                      unfold lookupObj at hl hl1
                      rw [hl1, hl] at hiso
                      simp at hiso
                  | some o1 => exact isFrozen_setObj_freeze _ a o1 hl1
              | cons k ks =>
                  simp only [readPath] at hp
                  cases hg : getProp h a k with
                  | none => rw [hg] at hp; simp at hp
                  | some v1 =>
                      rw [hg] at hp
                      have hfind : findAssoc o.props k = some v1 := by
                        unfold getProp at hg
                        rw [hl] at hg
                        exact hg
                      have hmem := findAssoc_mem o.props k v1 hfind
                      cases hs : seqFields (readTree h fuel) o.props with
                      | none => simp [readTree, hl, hs] at hr
                      | some fs =>
                          obtain ⟨t1, ht1⟩ := seqFields_mem o.props hs (k, v1) hmem
                          simp only [freezeDeep, hl]
                          apply hQfin
                          apply foldFields_establishes (freezeDeep fuel)
                            (fun hh => readTree hh fuel v1 = some t1 ∧
                              readPath hh v1 ks = some (.vref b))
                            (fun hh => isFrozen hh b = true) v1
                            ?hP ?hQ ?hPQ o.props h ⟨k, hmem⟩ ⟨ht1, hp⟩
                          case hP =>
                            intro hh vv hpp
                            have hsp := freezeOnly_sameProps (freezeDeep_freezeOnly fuel vv hh)
                            exact ⟨(sameProps_readTree hsp fuel v1).trans hpp.1,
                                   (sameProps_readPath hsp ks v1).trans hpp.2⟩
                          case hQ =>
                            intro hh vv hq
                            exact (freezeDeep_freezeOnly fuel vv hh).2.2.1 b hq
                          case hPQ =>
                            intro hh hpp
                            exact ih v1 hh t1 ks b hpp.1 hpp.2

/-! ## The wrap pipeline -/

theorem sameProps_trans {h1 h2 h3 : Heap} (h12 : SameProps h1 h2)
    (h23 : SameProps h2 h3) : SameProps h1 h3 :=
  fun a => (h23 a).trans (h12 a)

theorem enhance_nil (h : Heap) (a : Addr) : enhanceWithMethods h a [] = h := rfl

theorem freezeSys_freezeOnly (fuel : Nat) (h : Heap) (a : Addr) :
    FreezeOnly h (freezeSys fuel h a) := by
  unfold freezeSys
  cases getProp h a "sys" with
  | none => exact freezeOnly_refl h
  | some v => exact freezeDeep_freezeOnly fuel v h

theorem wrap_eq (fuel http : Nat) (h : Heap) (v : JVal) (h2 : Heap) (e : Addr)
    (hw : wrapPreviewApiKey fuel http h v = some (h2, e)) :
    ∃ h1, cloneDeep fuel h v = some (h1, .vref e) ∧
      h2 = freezeSys fuel (toPlainObjectSetup h1 e) e := by
  unfold wrapPreviewApiKey at hw
  cases hc : cloneDeep fuel h v with
  | none => rw [hc] at hw; exact absurd hw (by simp)
  | some p =>
      obtain ⟨h1, v1⟩ := p
      rw [hc] at hw
      cases v1 with
      | vref a =>
          simp only [enhance_nil, Option.some.injEq, Prod.mk.injEq] at hw
          obtain ⟨hw1, hw2⟩ := hw
          subst hw2
          exact ⟨h1, rfl, hw1.symm⟩
      | vnull => exact absurd hw (by simp)
      | vbool b => exact absurd hw (by simp)
      | vnum n => exact absurd hw (by simp)
      | vstr s => exact absurd hw (by simp)

theorem cloneDeep_root (fuel : Nat) (h : Heap) (v : JVal) (h1 : Heap) (e : Addr)
    (hc : cloneDeep fuel h v = some (h1, .vref e)) :
    ∃ ps, lookupObj h1 e = some ⟨ps, [], false⟩ := by
  cases fuel with
  | zero =>
      cases v <;> simp [cloneDeep] at hc
  | succ fuel =>
      cases v with
      | vnull => simp [cloneDeep] at hc
      | vbool b => simp [cloneDeep] at hc
      | vnum n => simp [cloneDeep] at hc
      | vstr s => simp [cloneDeep] at hc
      | vref a =>
          cases hl : lookupObj h a with
          | none => simp [cloneDeep, hl] at hc
          | some o =>
              cases hcf : cloneFieldsWith (cloneDeep fuel) h o.props with
              | none => simp [cloneDeep, hl, hcf] at hc
              | some p =>
                  obtain ⟨hf, ps⟩ := p
                  simp only [cloneDeep, hl, hcf, Option.some.injEq, Prod.mk.injEq] at hc
                  obtain ⟨rfl, he⟩ := hc
                  have he2 : e = hf.next := by
                    injection he.symm
                  subst he2
                  exact ⟨ps, lookupObj_allocObj_self hf _⟩

theorem wrap_sameProps (fuel : Nat) (h1 : Heap) (e : Addr) :
    SameProps h1 (freezeSys fuel (toPlainObjectSetup h1 e) e) :=
  sameProps_trans (addMethod_sameProps h1 e "toPlainObject" ⟨"toPlainObject", none⟩)
    (freezeOnly_sameProps (freezeSys_freezeOnly fuel (toPlainObjectSetup h1 e) e))

theorem wrap_wf (fuel : Nat) (h1 : Heap) (e : Addr) (hwf : h1.WF) :
    (freezeSys fuel (toPlainObjectSetup h1 e) e).WF :=
  freezeOnly_wf (freezeSys_freezeOnly fuel (toPlainObjectSetup h1 e) e)
    (addMethod_wf h1 e "toPlainObject" ⟨"toPlainObject", none⟩ hwf)

theorem cloneDeep_total :
    ∀ fuel h v t, h.WF → readTree h fuel v = some t →
      (cloneDeep fuel h v).isSome = true := by
  intro fuel
  induction fuel with
  | zero =>
      intro h v t hwf hr
      cases v with
      | vref a => simp [readTree] at hr
      | vnull => rfl
      | vbool b => rfl
      | vnum n => rfl
      | vstr s => rfl
  | succ fuel ih =>
      intro h v t hwf hr
      cases v with
      | vnull => rfl
      | vbool b => rfl
      | vnum n => rfl
      | vstr s => rfl
      | vref a =>
          cases hl : lookupObj h a with
          | none => simp [readTree, hl] at hr
          | some o =>
              cases hs : seqFields (readTree h fuel) o.props with
              | none => simp [readTree, hl, hs] at hr
              | some fs =>
                  have hvals := wf_lookup_refOK h hwf a o hl
                  have htot : ∀ l h3, h3.WF → (∀ kv ∈ l, valRefOK h3 kv.2 = true) →
                      ∀ fs2, seqFields (readTree h3 fuel) l = some fs2 →
                      (cloneFieldsWith (cloneDeep fuel) h3 l).isSome = true := by
                    intro l
                    induction l with
                    | nil => intro h3 _ _ fs2 _; rfl
                    | cons kv rest ihl =>
                        intro h3 hwf3 hvals3 fs2 hs2
                        obtain ⟨k2, v2⟩ := kv
                        simp only [seqFields] at hs2
                        cases hr2 : readTree h3 fuel v2 with
                        | none => rw [hr2] at hs2; simp at hs2
                        | some t2 =>
                            rw [hr2] at hs2
                            cases hrr : seqFields (readTree h3 fuel) rest with
                            | none => rw [hrr] at hs2; simp at hs2
                            | some ts =>
                                have hc2 := ih h3 v2 t2 hwf3 hr2
                                obtain ⟨p1, hp1⟩ := Option.isSome_iff_exists.mp hc2
                                obtain ⟨hm, v1⟩ := p1
                                obtain ⟨M1, M2, M3, _, _, _⟩ :=
                                  cloneDeep_spec fuel h3 v2 hm v1 hwf3 hp1
                                have hrest2 : seqFields (readTree hm fuel) rest
                                    = some ts := by
                                  rw [seqFields_congr rest (fun kv2 hm2 =>
                                    readTree_frame_low h3 hm hwf3 M3 fuel kv2.2
                                      (hvals3 kv2 (List.mem_cons_of_mem _ hm2)))]
                                  exact hrr
                                have hvrest : ∀ kv2 ∈ rest, valRefOK hm kv2.2 = true :=
                                  fun kv2 hm2 => valRefOK_frame h3 hm hwf3 M3 kv2.2
                                    (hvals3 kv2 (List.mem_cons_of_mem _ hm2))
                                have := ihl hm M2 hvrest ts hrest2
                                obtain ⟨p2, hp2⟩ := Option.isSome_iff_exists.mp this
                                obtain ⟨h4, vs4⟩ := p2
                                simp [cloneFieldsWith, hp1, hp2]
                  have := htot o.props h hwf hvals fs hs
                  obtain ⟨p1, hp1⟩ := Option.isSome_iff_exists.mp this
                  obtain ⟨hf, ps⟩ := p1
                  simp [cloneDeep, hl, hp1]

theorem wrap_methodsAt (fuel http : Nat) (h : Heap) (v : JVal) (h2 : Heap) (e : Addr)
    (hw : wrapPreviewApiKey fuel http h v = some (h2, e)) :
    methodsAt h2 e = some [("toPlainObject", ⟨"toPlainObject", none⟩)] := by
  obtain ⟨h1, hc, heq⟩ := wrap_eq fuel http h v h2 e hw
  obtain ⟨ps, hroot⟩ := cloneDeep_root fuel h v h1 e hc
  subst heq
  have h3m : methodsAt (toPlainObjectSetup h1 e) e
      = some (setAssoc ([] : List (String × MethodClosure)) "toPlainObject"
          ⟨"toPlainObject", none⟩) :=
    methodsAt_addMethod_self h1 e _ _ ⟨ps, [], false⟩ hroot rfl
  have hfo := freezeSys_freezeOnly fuel (toPlainObjectSetup h1 e) e
  rw [hfo.2.1 e, h3m]
  rfl

/-- C1: for every raw API response object, the entity returned by
`wrapPreviewApiKey` has its `sys` metadata frozen after wrapping: every object
reachable from the wrapped entity through the `sys` property is frozen, so a
property write on it is a silent no-op and no property write anywhere changes
any of its fields — `sys` is read-only from the client's perspective. -/
theorem wrap_sys_frozen (fuel http : Nat) (h : Heap) (v : JVal) (h2 : Heap) (e : Addr)
    (p : List String) (b : Addr) (k : String) (w : JVal)
    (hwf : h.WF)
    (hw : wrapPreviewApiKey fuel http h v = some (h2, e))
    (hpath : readPath h2 (.vref e) ("sys" :: p) = some (.vref b)) :
    isFrozen h2 b = true ∧ setProp h2 b k w = h2 ∧
      (∀ a, lookupObj (setProp h2 a k w) b = lookupObj h2 b) := by
  obtain ⟨h1, hc, heq⟩ := wrap_eq fuel http h v h2 e hw
  obtain ⟨_, _, _, A4, A5, _⟩ := cloneDeep_spec fuel h v h1 (.vref e) hwf hc
  obtain ⟨t, ht⟩ := Option.isSome_iff_exists.mp A5
  have hrt1 : readTree h1 fuel (.vref e) = some t := by rw [A4, ht]
  cases fuel with
  | zero => simp [readTree] at hrt1
  | succ f =>
      have hsp13 : SameProps h1 (toPlainObjectSetup h1 e) :=
        addMethod_sameProps h1 e "toPlainObject" ⟨"toPlainObject", none⟩
      have hsp32 : SameProps (toPlainObjectSetup h1 e) h2 := by
        rw [heq]
        exact freezeOnly_sameProps
          (freezeSys_freezeOnly (f + 1) (toPlainObjectSetup h1 e) e)
      simp only [readPath] at hpath
      cases hg2 : getProp h2 e "sys" with
      | none => rw [hg2] at hpath; simp at hpath
      | some vs =>
          rw [hg2] at hpath
          have hg3 : getProp (toPlainObjectSetup h1 e) e "sys" = some vs := by
            rw [← sameProps_getProp hsp32 e "sys"]
            exact hg2
          have hfrz : h2 = freezeDeep (f + 1) (toPlainObjectSetup h1 e) vs := by
            rw [heq]
            unfold freezeSys
            rw [hg3]
          cases hle : lookupObj h1 e with
          | none => simp [readTree, hle] at hrt1
          | some o =>
              cases hsf : seqFields (readTree h1 f) o.props with
              | none => simp [readTree, hle, hsf] at hrt1
              | some fs =>
                  have hg1 : getProp h1 e "sys" = some vs := by
                    rw [← sameProps_getProp hsp13 e "sys"]
                    exact hg3
                  have hfind : findAssoc o.props "sys" = some vs := by
                    unfold getProp at hg1
                    rw [hle] at hg1
                    exact hg1
                  have hmem := findAssoc_mem o.props "sys" vs hfind
                  obtain ⟨ts, hts⟩ := seqFields_mem o.props hsf ("sys", vs) hmem
                  have hts3 : readTree (toPlainObjectSetup h1 e) f vs = some ts := by
                    rw [sameProps_readTree hsp13 f vs]
                    exact hts
                  have hts3b := readTree_mono (toPlainObjectSetup h1 e) f vs ts hts3
                  have hpath3 : readPath (toPlainObjectSetup h1 e) vs p
                      = some (.vref b) := by
                    rw [← sameProps_readPath hsp32 p vs]
                    exact hpath
                  have hfrozen : isFrozen h2 b = true := by
                    rw [hfrz]
                    exact freezeDeep_freezes (f + 1) vs (toPlainObjectSetup h1 e)
                      ts p b hts3b hpath3
                  refine ⟨hfrozen, setProp_frozen h2 b k w hfrozen, ?_⟩
                  intro a
                  by_cases hab : a = b
                  · subst hab
                    rw [setProp_frozen h2 a k w hfrozen]
                  · exact lookupObj_setProp_other h2 a b k w (Ne.symm hab)

/-- C2: wrapping tracks a plain-object snapshot: calling `toPlainObject()` on
the wrapped entity succeeds and returns a plain object reading back to exactly
the tree of the raw response data — the wrap-then-`toPlainObject` round trip
is the identity on the data fields (`sys`, `name`, `description` included). -/
theorem wrap_toPlainObject_roundtrip (fuel http : Nat) (h : Heap) (v : JVal)
    (hwf : h.WF) (hw : (wrapPreviewApiKey fuel http h v).isSome = true) :
    ((wrapPreviewApiKey fuel http h v).bind
        (fun p => callToPlainObject fuel p.1 p.2)).bind
      (fun p => readTree p.1 fuel p.2) = readTree h fuel v ∧
    ((wrapPreviewApiKey fuel http h v).bind
        (fun p => callToPlainObject fuel p.1 p.2)).isSome = true := by
  obtain ⟨pw, hpw⟩ := Option.isSome_iff_exists.mp hw
  obtain ⟨h2, e⟩ := pw
  obtain ⟨h1, hc, heq⟩ := wrap_eq fuel http h v h2 e hpw
  obtain ⟨_, B2, _, A4, A5, _⟩ := cloneDeep_spec fuel h v h1 (.vref e) hwf hc
  obtain ⟨t, ht⟩ := Option.isSome_iff_exists.mp A5
  have hrt1 : readTree h1 fuel (.vref e) = some t := by rw [A4, ht]
  have hsp : SameProps h1 h2 := heq ▸ wrap_sameProps fuel h1 e
  have hwf2 : h2.WF := heq ▸ wrap_wf fuel h1 e B2
  have hrt2 : readTree h2 fuel (.vref e) = some t := by
    rw [sameProps_readTree hsp fuel (.vref e)]
    exact hrt1
  have hmeth : hasMethod h2 e "toPlainObject" = true := by
    have hma := wrap_methodsAt fuel http h v h2 e hpw
    unfold hasMethod
    unfold methodsAt at hma
    cases hl2 : lookupObj h2 e with
    | none => rw [hl2] at hma; simp at hma
    | some o2 =>
        rw [hl2] at hma
        injection hma with hma
        show (findAssoc o2.methods "toPlainObject").isSome = true
        rw [hma]
        rfl
  have hctot := cloneDeep_total fuel h2 (.vref e) t hwf2 hrt2
  obtain ⟨pc, hpc⟩ := Option.isSome_iff_exists.mp hctot
  obtain ⟨h4, v4⟩ := pc
  obtain ⟨_, _, _, C4, _, _⟩ := cloneDeep_spec fuel h2 (.vref e) h4 v4 hwf2 hpc
  have hcall : callToPlainObject fuel h2 e = some (h4, v4) := by
    unfold callToPlainObject
    rw [hmeth]
    simp only [if_true]
    exact hpc
  constructor
  · rw [hpw]
    show (callToPlainObject fuel h2 e).bind (fun p => readTree p.1 fuel p.2)
        = readTree h fuel v
    rw [hcall]
    show readTree h4 fuel v4 = readTree h fuel v
    rw [C4, hrt2, ht]
  · rw [hpw]
    show (callToPlainObject fuel h2 e).isSome = true
    rw [hcall]
    rfl

/-- C6: the wrapped entity holds a deep copy of the raw data: wrapping leaves
the original data's readback unchanged, mutating any object reachable from
the wrapped entity never changes the original data object, and mutating any
pre-existing object (in particular the original data) never changes the
wrapped entity. -/
theorem wrap_deep_copy_independent (fuel http : Nat) (h : Heap) (v : JVal)
    (h2 : Heap) (e : Addr) (hwf : h.WF)
    (hw : wrapPreviewApiKey fuel http h v = some (h2, e)) :
    readTree h2 fuel v = readTree h fuel v ∧
    (∀ p b k w, readPath h2 (.vref e) p = some (.vref b) →
      readTree (setProp h2 b k w) fuel v = readTree h fuel v) ∧
    (∀ a k w, a < h.next →
      readTree (setProp h2 a k w) fuel (.vref e) = readTree h2 fuel (.vref e)) := by
  obtain ⟨h1, hc, heq⟩ := wrap_eq fuel http h v h2 e hw
  obtain ⟨A1, _, A3, _, A5, A6⟩ := cloneDeep_spec fuel h v h1 (.vref e) hwf hc
  obtain ⟨t, ht⟩ := Option.isSome_iff_exists.mp A5
  have hsp : SameProps h1 h2 := heq ▸ wrap_sameProps fuel h1 e
  have hclosedh : closedIn h (belowPred h.next) fuel v = true :=
    readTree_closed h hwf fuel v t ht
  have hag1 : AgreeOn (belowPred h.next) h h1 := by
    intro a hpa
    unfold propsAt
    rw [A3 a (belowPred_true.mp hpa)]
  have h1low := agreeOn_readTree hag1 fuel v hclosedh
  have hrth2 : readTree h2 fuel v = readTree h fuel v := by
    rw [sameProps_readTree hsp fuel v]
    exact h1low.1
  have hclosed2 : closedIn h2 (belowPred h.next) fuel v = true := by
    rw [sameProps_closedIn hsp fuel v (belowPred h.next)]
    exact h1low.2
  have hent2 : closedIn h2 (rangePred h.next h1.next) fuel (.vref e) = true := by
    rw [sameProps_closedIn hsp fuel (.vref e) (rangePred h.next h1.next)]
    exact A6
  refine ⟨hrth2, ?_, ?_⟩
  · intro p b k w hpath
    have hb : rangePred h.next h1.next b = true :=
      closedIn_readPath h2 (rangePred h.next h1.next) p fuel (.vref e) b hent2 hpath
    have hbge : h.next ≤ b := (rangePred_true.mp hb).1
    have hagset : AgreeOn (belowPred h.next) h2 (setProp h2 b k w) := by
      intro a hpa
      unfold propsAt
      rw [lookupObj_setProp_other h2 b a k w
        (Nat.ne_of_lt (Nat.lt_of_lt_of_le (belowPred_true.mp hpa) hbge))]
    rw [(agreeOn_readTree hagset fuel v hclosed2).1]
    exact hrth2
  · intro a k w ha
    have hagset : AgreeOn (rangePred h.next h1.next) h2 (setProp h2 a k w) := by
      intro a2 hpa
      unfold propsAt
      rw [lookupObj_setProp_other h2 a a2 k w
        (Nat.ne_of_gt (Nat.lt_of_lt_of_le ha (rangePred_true.mp hpa).1))]
    exact (agreeOn_readTree hagset fuel (.vref e) hent2).1

theorem wrap_sys_frozen_witness :
    isFrozen sampleWrap.1 6 = true ∧
    setProp sampleWrap.1 6 "id" (.vstr "hacked") = sampleWrap.1 := by
  have hmain := wrap_sys_frozen 10 7 sampleHeap (.vref 3) sampleWrap.1 sampleWrap.2
    [] 6 "id" (.vstr "hacked") (by decide) rfl rfl
  exact ⟨hmain.1, hmain.2.1⟩

theorem wrap_toPlainObject_roundtrip_witness :
    ((wrapPreviewApiKey 10 7 sampleHeap (.vref 3)).bind
        (fun p => callToPlainObject 10 p.1 p.2)).bind
      (fun p => readTree p.1 10 p.2) = readTree sampleHeap 10 (.vref 3) ∧
    ((wrapPreviewApiKey 10 7 sampleHeap (.vref 3)).bind
        (fun p => callToPlainObject 10 p.1 p.2)).isSome = true :=
  wrap_toPlainObject_roundtrip 10 7 sampleHeap (.vref 3) (by decide) rfl

theorem wrap_deep_copy_independent_witness :
    readTree sampleWrap.1 10 (.vref 3) = readTree sampleHeap 10 (.vref 3) ∧
    readTree (setProp sampleWrap.1 7 "name" (.vstr "changed")) 10 (.vref 3)
      = readTree sampleHeap 10 (.vref 3) ∧
    readTree (setProp sampleWrap.1 2 "id" (.vstr "changed")) 10 (.vref 7)
      = readTree sampleWrap.1 10 (.vref 7) := by
  have hmain := wrap_deep_copy_independent 10 7 sampleHeap (.vref 3)
    sampleWrap.1 sampleWrap.2 (by decide) rfl
  refine ⟨hmain.1, ?_, ?_⟩
  · exact hmain.2.1 [] 7 "name" (.vstr "changed") rfl
  · exact hmain.2.2 2 "id" (.vstr "changed") (by decide)

/-- C10: the result of `wrapPreviewApiKey` does not depend on its HTTP client
argument: for every heap and raw data value, any two client identities give
identical results — the wrapped preview API key closes over no HTTP client
(the source's `_http` parameter is unused) and its behaviour is a
deterministic function of the data alone. -/
theorem wrapPreviewApiKey_http_independent (fuel httpA httpB : Nat) (h : Heap)
    (v : JVal) :
    wrapPreviewApiKey fuel httpA h v = wrapPreviewApiKey fuel httpB h v := rfl

/-- C3(counterexample): wrapping a concrete raw preview-api-key response
succeeds, yet the resulting entity gains no `update`, no `delete` and no
`publish` method: `createPreviewApiKeyApi` returns the empty methods object,
so the claim that the wrapped preview API key gains mutation methods closing
over the HTTP client is false. -/
theorem wrap_no_mutation_methods_cex :
    (wrapPreviewApiKey 10 7 sampleHeap (.vref 3)).isSome = true ∧
    hasMethodOpt (wrapPreviewApiKey 10 7 sampleHeap (.vref 3)) "update" = false ∧
    hasMethodOpt (wrapPreviewApiKey 10 7 sampleHeap (.vref 3)) "delete" = false ∧
    hasMethodOpt (wrapPreviewApiKey 10 7 sampleHeap (.vref 3)) "publish" = false := by
  decide

/-- C3(amended): the wrap pipeline decorates the cloned data with the methods
object built by the entity's API factory (method-binding through
`enhanceWithMethods`), plus the `toPlainObject` snapshot method; for preview
API keys the factory `createPreviewApiKeyApi` returns the empty methods
object and ignores the HTTP client, so the wrapped entity's methods are
exactly `toPlainObject` — it gains no mutation methods and captures no HTTP
client. -/
theorem wrap_methods_exactly_toPlainObject (fuel http : Nat) (h : Heap) (v : JVal)
    (h2 : Heap) (e : Addr)
    (hw : wrapPreviewApiKey fuel http h v = some (h2, e)) :
    methodsAt h2 e
      = some (("toPlainObject", ⟨"toPlainObject", none⟩) :: createPreviewApiKeyApi) :=
  wrap_methodsAt fuel http h v h2 e hw

theorem wrap_methods_exactly_toPlainObject_witness :
    methodsAt sampleWrap.1 sampleWrap.2
      = some (("toPlainObject", ⟨"toPlainObject", none⟩) :: createPreviewApiKeyApi) :=
  wrap_methods_exactly_toPlainObject 10 7 sampleHeap (.vref 3)
    sampleWrap.1 sampleWrap.2 rfl

/-! ## Collections -/

theorem wrapItemsWith_forall2 (f : Heap → JVal → Option (Heap × Addr)) :
    ∀ l h h2 as2, wrapItemsWith f h l = some (h2, as2) →
      List.Forall₂ (fun v a => ∃ ha hb, f ha v = some (hb, a)) l as2 := by
  intro l
  induction l with
  | nil =>
      intro h h2 as2 hwi
      simp only [wrapItemsWith, Option.some.injEq, Prod.mk.injEq] at hwi
      obtain ⟨_, rfl⟩ := hwi
      exact List.Forall₂.nil
  | cons v rest ih =>
      intro h h2 as2 hwi
      simp only [wrapItemsWith] at hwi
      cases hc1 : f h v with
      | none => simp [hc1] at hwi
      | some p1 =>
          obtain ⟨h1, a⟩ := p1
          simp only [hc1] at hwi
          cases hc2 : wrapItemsWith f h1 rest with
          | none => simp [hc2] at hwi
          | some p2 =>
              obtain ⟨h3, as3⟩ := p2
              simp only [hc2, Option.some.injEq, Prod.mk.injEq] at hwi
              obtain ⟨rfl, rfl⟩ := hwi
              exact List.Forall₂.cons ⟨h, h1, hc1⟩ (ih h1 h3 as3 hc2)

/-- C7: for every collection response (sys of type `Array`, `total`, `skip`,
`limit`, items), `wrapPreviewApiKeyCollection` preserves the pagination
metadata unchanged, and its items are exactly the elementwise wrapping of the
response items by `wrapPreviewApiKey`, in the same order and of the same
length. -/
theorem wrapPreviewApiKeyCollection_pagination (fuel http : Nat) (h h2 : Heap)
    (c : CollectionData) (out : WrappedCollection)
    (hw : wrapPreviewApiKeyCollection fuel http h c = some (h2, out)) :
    out.sysType = c.sysType ∧ out.total = c.total ∧ out.skip = c.skip ∧
    out.limit = c.limit ∧ out.items.length = c.items.length ∧
    List.Forall₂ (fun v a => ∃ ha hb, wrapPreviewApiKey fuel http ha v = some (hb, a))
      c.items out.items := by
  unfold wrapPreviewApiKeyCollection wrapCollection at hw
  cases hwi : wrapItemsWith (wrapPreviewApiKey fuel http) h c.items with
  | none => rw [hwi] at hw; exact absurd hw (by simp)
  | some p =>
      obtain ⟨h1, as2⟩ := p
      rw [hwi] at hw
      simp only [Option.some.injEq, Prod.mk.injEq] at hw
      obtain ⟨rfl, rfl⟩ := hw
      have hf2 := wrapItemsWith_forall2 (wrapPreviewApiKey fuel http) c.items h h1 as2 hwi
      exact ⟨rfl, rfl, rfl, rfl, (List.Forall₂.length_eq hf2).symm, hf2⟩

theorem wrapPreviewApiKeyCollection_pagination_witness :
    sampleColWrap.2.sysType = sampleCollection.sysType ∧
    sampleColWrap.2.total = sampleCollection.total ∧
    sampleColWrap.2.items.length = sampleCollection.items.length := by
  have hmain := wrapPreviewApiKeyCollection_pagination 10 7 sampleHeap
    sampleColWrap.1 sampleCollection sampleColWrap.2 rfl
  exact ⟨hmain.1, hmain.2.1, hmain.2.2.2.2.1⟩

/-! ## The organization API -/

theorem runOrgCall_eq (http : HttpClient) (c : OrgCall) :
    runOrgCall http c = issue http (orgRequest c) (orgWrap c) := by
  cases c with
  | getUser id => rfl
  | getUsers query => rfl
  | getOrganizationMembership id => rfl
  | getOrganizationMemberships query => rfl
  | createTeam data => rfl
  | getTeam teamId => rfl
  | getTeams query => rfl
  | createTeamMembership teamId data => rfl
  | getTeamMembership teamId teamMembershipId => rfl
  | getTeamMemberships opts =>
      obtain ⟨tid, q⟩ := opts
      cases tid with
      | none => rfl
      | some s =>
          by_cases hs : s = ""
          · subst hs; rfl
          · simp [runOrgCall, orgRequest, orgWrap, strTruthy, hs, issue,
              wrapTeamMembershipCollection]
  | getTeamSpaceMemberships opts =>
      obtain ⟨tid, q⟩ := opts
      cases tid with
      | none => rfl
      | some s =>
          by_cases hs : s = ""
          · subst hs; rfl
          · simp [runOrgCall, orgRequest, orgWrap, strTruthy, hs, issue,
              wrapTeamSpaceMembershipCollection]
  | getTeamSpaceMembership teamSpaceMembershipId => rfl
  | getOrganizationSpaceMembership id => rfl
  | getOrganizationSpaceMemberships query => rfl
  | getOrganizationInvitation invitationId => rfl
  | createOrganizationInvitation data => rfl
  | createAppDefinition data => rfl
  | getAppDefinitions query => rfl
  | getAppDefinition id => rfl

/-- C4: every method of the organization API issues exactly one HTTP request
— its request trace is the singleton of its request — and its result is the
wrapped typed value built from the response data when the request is
fulfilled, or the rejection produced by the error handler when it fails; no
method issues zero or more than one request. -/
theorem org_api_single_request (http : HttpClient) (c : OrgCall) :
    (runOrgCall http c).1 = [orgRequest c] ∧
    (∀ d, http (orgRequest c) = .ok d → (runOrgCall http c).2 = .ok (orgWrap c d)) ∧
    (∀ e, http (orgRequest c) = .error e →
      (runOrgCall http c).2 = .error (errorHandler e)) := by
  rw [runOrgCall_eq]
  refine ⟨rfl, ?_, ?_⟩
  · intro d hd
    show (match http (orgRequest c) with
      | .ok d2 => Except.ok (orgWrap c d2)
      | .error e => Except.error (errorHandler e)) = .ok (orgWrap c d)
    rw [hd]
  · intro e he
    show (match http (orgRequest c) with
      | .ok d2 => Except.ok (orgWrap c d2)
      | .error e2 => Except.error (errorHandler e2)) = .error (errorHandler e)
    rw [he]

theorem org_api_single_request_witness :
    (runOrgCall okClient (.getUser "u1")).1 = [orgRequest (.getUser "u1")] ∧
    (runOrgCall okClient (.getUser "u1")).2 = .ok (orgWrap (.getUser "u1") okData) := by
  have hmain := org_api_single_request okClient (.getUser "u1")
  exact ⟨hmain.1, hmain.2.1 okData rfl⟩

/-- C5: when the underlying HTTP request of an organization API method fails,
the failure is passed through the single `errorHandler` attached as the
rejection handler of the request promise and the call rejects with its
result; conversely every rejected call arises that way — there is no retry
and no alternative failure path. -/
theorem org_api_error_path (http : HttpClient) (c : OrgCall) (e : HttpError) :
    (http (orgRequest c) = .error e →
      runOrgCall http c = ([orgRequest c], .error (errorHandler e))) ∧
    (∀ x, (runOrgCall http c).2 = .error x →
      ∃ e2, http (orgRequest c) = .error e2 ∧ x = errorHandler e2) := by
  constructor
  · intro he
    rw [runOrgCall_eq]
    unfold issue
    rw [he]
  · intro x hx
    rw [runOrgCall_eq] at hx
    unfold issue at hx
    cases hh : http (orgRequest c) with
    | ok d =>
        rw [hh] at hx
        simp at hx
    | error e2 =>
        rw [hh] at hx
        simp only at hx
        injection hx with hx
        exact ⟨e2, rfl, hx.symm⟩

theorem org_api_error_path_witness :
    runOrgCall failingClient (.getUser "u1")
      = ([⟨"GET", "users/u1", [], [], none⟩], .error (errorHandler sampleErr)) :=
  (org_api_error_path failingClient (.getUser "u1") sampleErr).1 rfl

/-- C8: `getTeamMemberships` issues its GET request to the path
`teams/<teamId>/team_memberships` exactly when `opts.teamId` is present and
truthy, and to `team_memberships` otherwise; in both cases the query sent is
`opts.query` when present and the empty query otherwise. -/
theorem getTeamMemberships_request (http : HttpClient) (opts : TeamOpts) :
    ((runOrgCall http (.getTeamMemberships opts)).1.map ApiRequest.path =
      [if strTruthy opts.teamId then
        "teams/" ++ opts.teamId.getD "" ++ "/team_memberships"
       else "team_memberships"]) ∧
    ((runOrgCall http (.getTeamMemberships opts)).1.map ApiRequest.query =
      [opts.query.getD []]) ∧
    ((runOrgCall http (.getTeamMemberships opts)).1.map ApiRequest.verb = ["GET"]) := by
  obtain ⟨tid, q⟩ := opts
  cases tid with
  | none => exact ⟨rfl, rfl, rfl⟩
  | some s =>
      by_cases hs : s = ""
      · subst hs
        exact ⟨rfl, rfl, rfl⟩
      · refine ⟨?_, ?_, ?_⟩ <;>
          simp [runOrgCall, issue, strTruthy, hs]

/-! ## In-place query mutation of getTeamSpaceMemberships -/

theorem setProp_unfrozen_eq (h : Heap) (a : Addr) (k : String) (v : JVal) (o : JObj)
    (hl : lookupObj h a = some o) (hfr : o.frozen = false) :
    setProp h a k v = setObj h a { o with props := setAssoc o.props k v } := by
  unfold setProp
  rw [hl]
  show (if o.frozen = true then h
    else setObj h a { o with props := setAssoc o.props k v }) = _
  rw [hfr]
  rfl

theorem getProp_setProp_self (h : Heap) (a : Addr) (k : String) (v : JVal) (o : JObj)
    (hl : lookupObj h a = some o) (hfr : o.frozen = false) :
    getProp (setProp h a k v) a k = some v := by
  rw [setProp_unfrozen_eq h a k v o hl hfr]
  unfold getProp
  rw [lookupObj_setObj_self, hl]
  show findAssoc (setAssoc o.props k v) k = some v
  exact findAssoc_setAssoc_self o.props k v

theorem getProp_setProp_self_other (h : Heap) (a : Addr) (k k2 : String) (v : JVal)
    (o : JObj) (hl : lookupObj h a = some o) (hfr : o.frozen = false)
    (hne : k2 ≠ k) : getProp (setProp h a k v) a k2 = getProp h a k2 := by
  rw [setProp_unfrozen_eq h a k v o hl hfr]
  unfold getProp
  rw [lookupObj_setObj_self, hl]
  show findAssoc (setAssoc o.props k v) k2 = findAssoc o.props k2
  exact findAssoc_setAssoc_other o.props k k2 v hne

theorem queryStep_eq (h : Heap) (opts qa : Addr) (tid : JVal)
    (hq : getProp h opts "query" = some (.vref qa))
    (ht : getProp h opts "teamId" = some tid)
    (htr : truthy tid = true) :
    getTeamSpaceMembershipsQueryStep h opts
      = (setProp h qa "sys.team.sys.id" tid, .vref qa) := by
  simp [getTeamSpaceMembershipsQueryStep, hq, ht, htr]

/-- C9: when `opts.teamId` is present and truthy, `getTeamSpaceMemberships`
assigns the key `sys.team.sys.id` with value `opts.teamId` on the
caller-supplied `opts.query` object itself: the query it hands to the request
is the caller's object (the same address), so the caller's query object gains
the key as a side effect; every other key of the caller's query is unchanged
and no other object is touched. -/
theorem getTeamSpaceMemberships_mutates_query (h : Heap) (opts qa : Addr)
    (tid : JVal) (o : JObj)
    (hq : getProp h opts "query" = some (.vref qa))
    (ht : getProp h opts "teamId" = some tid)
    (htr : truthy tid = true)
    (ho : lookupObj h qa = some o) (hfr : o.frozen = false) :
    (getTeamSpaceMembershipsQueryStep h opts).2 = .vref qa ∧
    getProp (getTeamSpaceMembershipsQueryStep h opts).1 qa "sys.team.sys.id"
      = some tid ∧
    (∀ k, k ≠ "sys.team.sys.id" →
      getProp (getTeamSpaceMembershipsQueryStep h opts).1 qa k = getProp h qa k) ∧
    (∀ b, b ≠ qa →
      lookupObj (getTeamSpaceMembershipsQueryStep h opts).1 b = lookupObj h b) := by
  have hstep := queryStep_eq h opts qa tid hq ht htr
  rw [hstep]
  refine ⟨rfl, getProp_setProp_self h qa _ tid o ho hfr, ?_, ?_⟩
  · intro k hk
    exact getProp_setProp_self_other h qa _ k tid o ho hfr hk
  · intro b hb
    exact lookupObj_setProp_other h qa b _ tid hb

theorem getTeamSpaceMemberships_mutates_query_witness :
    (getTeamSpaceMembershipsQueryStep sampleOptsHeap 0).2 = .vref 1 ∧
    getProp (getTeamSpaceMembershipsQueryStep sampleOptsHeap 0).1 1 "sys.team.sys.id"
      = some (.vstr "team42") ∧
    getProp (getTeamSpaceMembershipsQueryStep sampleOptsHeap 0).1 1 "limit"
      = getProp sampleOptsHeap 1 "limit" := by
  have hmain := getTeamSpaceMemberships_mutates_query sampleOptsHeap 0 1
    (.vstr "team42") ⟨[("limit", .vnum 5)], [], false⟩ rfl rfl (by decide) rfl rfl
  exact ⟨hmain.1, hmain.2.1, hmain.2.2.1 "limit" (by decide)⟩
